import Mathlib

/-!
Verification of the piping-line extraction core of
`process_pdf_to_piping_lines.py` (class `PipingLineExtractor`).

Strings are modelled as lists of characters (`Str`). All text handled by the
program is ASCII, so the Python string operations (`upper`, `strip`, `split`,
`find`, slicing) and the `re` character classes (with `re.IGNORECASE`) are
embedded as ASCII character-code predicates on `Char`.

The three piping-line regular expressions are sequences of bounded character
class repetitions and literal characters, wrapped in word boundaries.  In all
three patterns the character classes of adjacent items are disjoint (a dash
never belongs to the class before it, a quote never belongs to the digit class,
and the trailing word boundary fails inside an alphanumeric run), so greedy
matching with backtracking coincides with deterministic maximal-run matching;
the matcher below uses the maximal-run form.
-/

abbrev Str := List Char

/-- Character class of the regex `\d` restricted to ASCII: decimal digits. -/
def isDigitC (c : Char) : Bool :=
  decide (48 ≤ c.toNat) && decide (c.toNat ≤ 57)

/-- Character class of the regex `[A-Z]` without `re.IGNORECASE`. -/
def isUpperC (c : Char) : Bool :=
  decide (65 ≤ c.toNat) && decide (c.toNat ≤ 90)

/-- ASCII lowercase letters. -/
def isLowerC (c : Char) : Bool :=
  decide (97 ≤ c.toNat) && decide (c.toNat ≤ 122)

/-- Character class of `[A-Z]` under `re.IGNORECASE`: any ASCII letter. -/
def isAlphaC (c : Char) : Bool := isUpperC c || isLowerC c

/-- Character class of `[A-Z0-9]` under `re.IGNORECASE`: ASCII alphanumerics. -/
def isAlnumC (c : Char) : Bool := isAlphaC c || isDigitC c

/-- Character class of the regex `\w` restricted to ASCII. -/
def isWordC (c : Char) : Bool := isAlnumC c || decide (c = '_')

/-- ASCII whitespace, as removed by Python `str.strip` and matched by `\s`. -/
def isSpaceC (c : Char) : Bool :=
  decide (c.toNat = 32) || (decide (9 ≤ c.toNat) && decide (c.toNat ≤ 13))

/-- ASCII uppercasing of one character, as done by Python `str.upper` on the
ASCII text handled by the program.  Written as an explicit table so that facts
about it are provable by case analysis. -/
def upChar (c : Char) : Char :=
  match c with
  | 'a' => 'A'
  | 'b' => 'B'
  | 'c' => 'C'
  | 'd' => 'D'
  | 'e' => 'E'
  | 'f' => 'F'
  | 'g' => 'G'
  | 'h' => 'H'
  | 'i' => 'I'
  | 'j' => 'J'
  | 'k' => 'K'
  | 'l' => 'L'
  | 'm' => 'M'
  | 'n' => 'N'
  | 'o' => 'O'
  | 'p' => 'P'
  | 'q' => 'Q'
  | 'r' => 'R'
  | 's' => 'S'
  | 't' => 'T'
  | 'u' => 'U'
  | 'v' => 'V'
  | 'w' => 'W'
  | 'x' => 'X'
  | 'y' => 'Y'
  | 'z' => 'Z'
  | other => other

/-- Python `str.upper` on ASCII text. -/
def upperStr (s : Str) : Str := s.map upChar

/-- Python `str.strip`: remove leading and trailing whitespace. -/
def stripStr (s : Str) : Str :=
  ((s.dropWhile isSpaceC).reverse.dropWhile isSpaceC).reverse

/-- Python `str.split(sep)` for a one-character separator, e.g.
`line.split("-")` and `text.split("\n")` in the source. -/
def splitOnChar (sep : Char) : Str → List Str
  | [] => [[]]
  | c :: rest =>
    if c = sep then
      [] :: splitOnChar sep rest
    else
      match splitOnChar sep rest with
      | comp :: comps => (c :: comp) :: comps
      | [] => [[c]]

/-- Python `sep.join(parts)` for a one-character separator. -/
def joinWith (sep : Char) : List Str → Str
  | [] => []
  | [x] => x
  | x :: y :: xs => x ++ sep :: joinWith sep (y :: xs)

/-- Tests whether the first list is an initial run of the second. -/
def leadsWith : Str → Str → Bool
  | [], _ => true
  | _ :: _, [] => false
  | c :: cs, x :: xs => decide (c = x) && leadsWith cs xs

/-- Python `str.find(sub)` (first index of a substring, or none), used by
`find_coordinates_for_text`. -/
def findSub : Str → Str → Option Nat
  | hay, need => findSubAux need hay 0
where
  findSubAux (need : Str) : Str → Nat → Option Nat
    | [], i => if leadsWith need [] then some i else none
    | c :: rest, i =>
      if leadsWith need (c :: rest) then some i else findSubAux need rest (i + 1)

/-! ## Regular-expression machinery

A pattern is a list of items, each a character class with repetition bounds
`{lo,hi}`; a literal character is the item `{1,1}` of its singleton class.
As explained above, for the patterns of the source adjacent classes are
disjoint and matching is deterministic maximal-run matching. -/

structure RItem where
  cls : Char → Bool
  lo : Nat
  hi : Nat

/-- Length of the maximal initial run of characters in a class. -/
def runLen (cls : Char → Bool) : Str → Nat
  | [] => 0
  | c :: rest => if cls c then runLen cls rest + 1 else 0

/-- Deterministic matching of a sequence of items at the head of `s`,
returning the number of characters consumed. -/
def matchItems : List RItem → Str → Option Nat
  | [], _ => some 0
  | it :: its, s =>
    let r := runLen it.cls s
    if it.lo ≤ r ∧ r ≤ it.hi then
      (matchItems its (s.drop r)).map (fun n => r + n)
    else
      none

/-- Word-ness of an optional character; out-of-range positions count as
non-word, as in `re`. -/
def isWordOpt : Option Char → Bool
  | none => false
  | some c => isWordC c

/-- The regex `\b`: a word boundary sits between two positions exactly when
one side is a word character and the other is not. -/
def wordBoundary (a b : Option Char) : Bool := isWordOpt a != isWordOpt b

/-- Matching `\b items \b` at the head of `s`, where `prev` is the character
just before `s` in the scanned line (none at the start of the line). -/
def matchPatAt (items : List RItem) (prev : Option Char) (s : Str) : Option Nat :=
  match matchItems items s with
  | none => none
  | some n =>
    if wordBoundary prev s.head? ∧ wordBoundary s[n-1]? s[n]? then some n
    else none

/-- Scanner for `re.findall`: try each start position from left to right and
continue after the end of every match (matches do not overlap).  `fuel` is an
upper bound on the number of scanning steps; it is initialised with the length
of the scanned line, which suffices because every step consumes at least one
character. -/
def findallAux (items : List RItem) : Nat → Option Char → Str → List Str
  | 0, _, _ => []
  | _ + 1, _, [] => []
  | fuel + 1, prev, c :: rest =>
    match matchPatAt items prev (c :: rest) with
    | some n =>
      let m := max n 1
      (c :: rest).take n ::
        findallAux items fuel ((c :: rest)[m-1]?) ((c :: rest).drop m)
    | none => findallAux items fuel (some c) rest

/-- Python `re.findall(pattern, line, re.IGNORECASE)` for the patterns used by
the source (which contain no capture groups, so the matched substrings are
returned). -/
def findall (items : List RItem) (s : Str) : List Str :=
  findallAux items s.length none s

/-- A literal character as a pattern item. -/
def litItem (c : Char) : RItem := ⟨fun x => decide (x = c), 1, 1⟩

/-- Pattern 1 of `extract_piping_line_numbers`, full format with size and inch
mark. -/
def pattern1 : List RItem :=
  [⟨isDigitC, 1, 2⟩, litItem '"', litItem '-', ⟨isAlphaC, 1, 3⟩, litItem '-',
   ⟨isAlnumC, 1, 3⟩, litItem '-', ⟨isAlnumC, 1, 4⟩]

/-- Pattern 2, size without the inch mark. -/
def pattern2 : List RItem :=
  [⟨isDigitC, 1, 2⟩, litItem '-', ⟨isAlphaC, 1, 3⟩, litItem '-',
   ⟨isAlnumC, 1, 3⟩, litItem '-', ⟨isAlnumC, 1, 4⟩]

/-- First character class of pattern 3: `[A-Z0-9"]` under `re.IGNORECASE`. -/
def isP3FirstC (c : Char) : Bool := isAlnumC c || decide (c = '"')

/-- Pattern 3, the general catch-all 4-component pattern. -/
def pattern3 : List RItem :=
  [⟨isP3FirstC, 1, 4⟩, litItem '-', ⟨isAlphaC, 1, 3⟩, litItem '-',
   ⟨isAlnumC, 1, 3⟩, litItem '-', ⟨isAlnumC, 1, 4⟩]

/-- The pattern cascade, in the order the source applies it. -/
def patternList : List (List RItem) := [pattern1, pattern2, pattern3]

/-! ## Normalization and validation -/

/-- Python `re.match(r"^cls+$", s)` for a character class `cls`: the dollar
anchor matches at the end of the string and also just before a single
trailing newline, so the string, after discounting one trailing newline, must
be nonempty and lie entirely in the class. -/
def reFullMatchDollar (cls : Char → Bool) (s : Str) : Bool :=
  let core := if s.getLast? = some '\n' then s.dropLast else s
  decide (core ≠ []) && core.all cls

/-- Method `normalize_piping_line`: if the first dash-separated component
matches `^\d+$` (purely numeric, where the dollar anchor also accepts one
trailing newline), append an inch mark to it. -/
def normalize_piping_line (line : Str) : Str :=
  match splitOnChar '-' line with
  | first :: rest =>
    if reFullMatchDollar isDigitC first then
      joinWith '-' ((first ++ ['"']) :: rest)
    else
      line
  | [] => line

/-- The regex `^[A-Z0-9]+$` (no `re.IGNORECASE`): nonempty, all uppercase
alphanumerics.  The source's dollar anchor would additionally accept one
trailing newline; the components this test is applied to in the pipeline are
dash-split parts of candidates produced by the three patterns, whose
character classes exclude the newline, so on that domain this definition
coincides with the source regex (claim C1 quantifies over exactly that
domain). -/
def matchesUpperAlnum (l : Str) : Bool :=
  decide (l ≠ []) && l.all (fun c => isUpperC c || isDigitC c)

/-- Method `validate_piping_line`.  The source is a sequence of early
`return False` checks followed by `return True`-or-final-test; short-circuit
conjunction in the same order is the same function. -/
def validate_piping_line (line : Str) : Bool :=
  let components := splitOnChar '-' line
  decide (components.length = 4) &&
  line.any isUpperC &&
  line.any isDigitC &&
  !(decide (20 < line.length) || decide (line.length < 7)) &&
  (components.headD []).any isDigitC &&
  matchesUpperAlnum (components[3]?.getD [])

/-! ## Layout spans and coordinate lookup -/

/-- Bounding box in page coordinates, the dictionary built from polygon
vertices 0 and 2. -/
structure BBox where
  x : Int
  y : Int
  width : Int
  height : Int
deriving DecidableEq

/-- One entry of `layout_info`: a text-anchor segment with its optional
bounding box and text snippet.  The field `stop` models the dictionary key
named `end` in the source. -/
structure Span where
  start : Nat
  stop : Nat
  bbox : Option BBox
  text : Str
deriving DecidableEq

/-- The overlap-scanning loop of `find_coordinates_for_text`: return the
bounding box of the first span whose range overlaps `[sp, ep)` and which
carries one; overlapping spans without a bounding box are skipped. -/
def findOverlapBBox : List Span → Nat → Nat → Option BBox
  | [], _, _ => none
  | l :: rest, sp, ep =>
    if (l.start ≤ sp ∧ sp < l.stop) ∨ (l.start < ep ∧ ep ≤ l.stop) ∨
        (sp ≤ l.start ∧ l.start < ep) then
      match l.bbox with
      | some b => some b
      | none => findOverlapBBox rest sp ep
    else
      findOverlapBBox rest sp ep

/-- Method `find_coordinates_for_text`. -/
def find_coordinates_for_text (target_text : Str) (text : Str)
    (layout_info : List Span) : Option BBox :=
  match findSub (upperStr text) (upperStr target_text) with
  | none => none
  | some start_pos => findOverlapBBox layout_info start_pos (start_pos + target_text.length)

/-! ## Identifier extraction -/

/-- Value stored per normalized identifier: 1-based line number, line context
truncated to 100 characters, optional coordinates. -/
abbrev PInfo := Nat × Str × Option BBox

/-- Body of the innermost loop of `extract_piping_line_numbers` applied to one
raw regex match: uppercase the stripped match, keep it only if it contains a
dash and an uppercase letter, and pair the normalized form with line number,
context and coordinates. -/
def candOfMatch (text : Str) (layout_info : List Span) (line : Str)
    (line_num : Nat) (mt : Str) : Option (Str × PInfo) :=
  let cleaned := upperStr (stripStr mt)
  if cleaned.contains '-' ∧ cleaned.any isUpperC then
    some (normalize_piping_line cleaned,
      (line_num, (stripStr line).take 100, find_coordinates_for_text mt text layout_info))
  else
    none

/-- Dictionary update `piping_lines[normalized_match] = ...` guarded by
`if normalized_match not in piping_lines`: the first occurrence of a key wins
and later occurrences leave the map unchanged. -/
def insertFirst (m : List (Str × PInfo)) (k : Str) (v : PInfo) : List (Str × PInfo) :=
  if m.any (fun p => decide (p.1 = k)) then m else m ++ [(k, v)]

/-- One raw match processed into the accumulating map. -/
def processMatch (text : Str) (layout_info : List Span) (line : Str)
    (line_num : Nat) (m : List (Str × PInfo)) (mt : Str) : List (Str × PInfo) :=
  match candOfMatch text layout_info line line_num mt with
  | some (k, v) => insertFirst m k v
  | none => m

/-- The per-line loop body: apply the three patterns in order and process all
their matches. -/
def processLine (text : Str) (layout_info : List Span) (line : Str)
    (line_num : Nat) (m : List (Str × PInfo)) : List (Str × PInfo) :=
  patternList.foldl
    (fun acc pat => (findall pat line).foldl (processMatch text layout_info line line_num) acc) m

/-- The outer loop over `enumerate(lines, 1)`. -/
def extractFromLines (text : Str) (layout_info : List Span) :
    Nat → List Str → List (Str × PInfo) → List (Str × PInfo)
  | _, [], m => m
  | line_num, line :: rest, m =>
    extractFromLines text layout_info (line_num + 1) rest
      (processLine text layout_info line line_num m)

/-- Method `extract_piping_line_numbers`: the insertion-ordered map from
normalized identifier to first-seen (line number, context, coordinates),
modelled as an association list. -/
def extract_piping_line_numbers (text : Str) (layout_info : List Span) :
    List (Str × PInfo) :=
  extractFromLines text layout_info 1 (splitOnChar '\n' text) []

/-- The raw candidate stream: every processed candidate of every pattern on
every line, in production order and without deduplication. -/
def lineCands (text : Str) (layout_info : List Span) (line : Str)
    (line_num : Nat) : List (Str × PInfo) :=
  (patternList.map (fun pat => findall pat line)).flatten.filterMap
    (candOfMatch text layout_info line line_num)

/-- Candidate stream of a whole document, line by line. -/
def streamFromLines (text : Str) (layout_info : List Span) :
    Nat → List Str → List (Str × PInfo)
  | _, [] => []
  | line_num, line :: rest =>
    lineCands text layout_info line line_num ++
      streamFromLines text layout_info (line_num + 1) rest

/-- Candidate stream of a document. -/
def candidateStream (text : Str) (layout_info : List Span) : List (Str × PInfo) :=
  streamFromLines text layout_info 1 (splitOnChar '\n' text)

/-- Folding a candidate list into the map with first-occurrence-wins
insertion. -/
def foldInsert (m : List (Str × PInfo)) (cands : List (Str × PInfo)) :
    List (Str × PInfo) :=
  cands.foldl (fun acc p => insertFirst acc p.1 p.2) m

/-- First binding of a key in an association list (Python dictionary lookup;
keys are unique in the maps the program builds). -/
def lookupFirst (k : Str) : List (Str × PInfo) → Option PInfo
  | [] => none
  | p :: rest => if p.1 = k then some p.2 else lookupFirst k rest

/-! ## PID identifier extraction -/

/-- Case-insensitive literal matching (`re.IGNORECASE`), returning the rest of
the input. -/
def litCI : Str → Str → Option Str
  | [], s => some s
  | _ :: _, [] => none
  | c :: cs, x :: xs => if upChar x = upChar c then litCI cs xs else none

/-- The regex `\s*` (greedy; deterministic here because in both PID patterns
the following item never matches whitespace). -/
def dropWS (s : Str) : Str := s.dropWhile isSpaceC

/-- The regex `\.?` (greedy; deterministic here because neither `\s` nor
`[A-Z0-9\-]` matches a period). -/
def dropDotOpt : Str → Str
  | '.' :: rest => rest
  | s => s

/-- Character class `[A-Z0-9\-]` under `re.IGNORECASE`. -/
def isPidClsC (c : Char) : Bool := isAlnumC c || decide (c = '-')

/-- Occurrence test for the mandatory literal `PID` inside the capture group:
the group `[A-Z0-9\-]+PID[A-Z0-9\-]*` matches a maximal class run exactly when
`PID` occurs in it at some index at least 1 (the `+` needs one earlier
character), and then greediness makes the group the whole run. -/
def hasInnerPID (run : Str) : Bool :=
  (List.range run.length).any
    (fun k => decide (1 ≤ k) && leadsWith ['P', 'I', 'D'] ((upperStr run).drop k))

/-- The capture group `([A-Z0-9\-]+PID[A-Z0-9\-]*)` matched at the head of
`s`. -/
def pidGroupAt (s : Str) : Option Str :=
  let run := s.takeWhile isPidClsC
  if run ≠ [] ∧ hasInnerPID run then some run else none

/-- First PID pattern `DWG\.\s*NO\.?\s*([A-Z0-9\-]+PID[A-Z0-9\-]*)` matched at
the head of `s`. -/
def matchPidPattern1At (s : Str) : Option Str :=
  (litCI ['D', 'W', 'G'] s).bind fun s1 =>
  (litCI ['.'] s1).bind fun s2 =>
  (litCI ['N', 'O'] (dropWS s2)).bind fun s3 =>
  pidGroupAt (dropWS (dropDotOpt s3))

/-- Second PID pattern `DWG\s*NO\.?\s*([A-Z0-9\-]+PID[A-Z0-9\-]*)` matched at
the head of `s`. -/
def matchPidPattern2At (s : Str) : Option Str :=
  (litCI ['D', 'W', 'G'] s).bind fun s1 =>
  (litCI ['N', 'O'] (dropWS s1)).bind fun s2 =>
  pidGroupAt (dropWS (dropDotOpt s2))

/-- Python `re.search`: the match at the leftmost start position. -/
def searchPid (matcher : Str → Option Str) : Str → Option Str
  | [] => none
  | c :: rest =>
    match matcher (c :: rest) with
    | some g => some g
    | none => searchPid matcher rest

/-- Method `extract_pid_identifier`: try the first pattern (mandatory period
after `DWG`), fall back to the second (no period after `DWG`), return the
stripped capture group or none. -/
def extract_pid_identifier (text : Str) : Option Str :=
  match searchPid matchPidPattern1At text with
  | some g => some (stripStr g)
  | none =>
    match searchPid matchPidPattern2At text with
    | some g => some (stripStr g)
    | none => none

/-- Modelled from the claim's words for comparison with the source: the
variant `DWG\.?\s*NO\.\s*(...)` with an optional period after `DWG` and a
mandatory period after `NO`, matched at the head of `s`. -/
def claimPidPattern1At (s : Str) : Option Str :=
  (litCI ['D', 'W', 'G'] s).bind fun s1 =>
  (litCI ['N', 'O'] (dropWS (dropDotOpt s1))).bind fun s2 =>
  (litCI ['.'] s2).bind fun s3 =>
  pidGroupAt (dropWS s3)

/-- Modelled from the claim's words: the fallback variant
`DWG\.?\s*NO\.?\s*(...)` without the mandatory period after `NO`. -/
def claimPidPattern2At (s : Str) : Option Str :=
  (litCI ['D', 'W', 'G'] s).bind fun s1 =>
  (litCI ['N', 'O'] (dropWS (dropDotOpt s1))).bind fun s2 =>
  pidGroupAt (dropWS (dropDotOpt s2))

/-- Modelled from the claim's words: PID extraction that tries the
period-after-NO variant first and falls back to the variant without the
mandatory period after `NO`.  Compared against `extract_pid_identifier`,
whose two patterns instead differ by the mandatory period after `DWG`. -/
def claim_extract_pid (text : Str) : Option Str :=
  match searchPid claimPidPattern1At text with
  | some g => some (stripStr g)
  | none =>
    match searchPid claimPidPattern2At text with
    | some g => some (stripStr g)
    | none => none

/-! ## Result assembly -/

/-- One entry of the output list `piping_lines`. -/
structure Entry where
  piping_line_number : Str
  text_line_number : Nat
  context : Str
  coordinates : Option BBox
deriving DecidableEq

/-- The pure content of the output of `save_results_as_json`: the file-system
metadata (source file name, timestamp, script name) is I/O context and carries
no extraction logic. -/
structure Results where
  total_found : Nat
  pid_identifier : Option Str
  piping_lines : List Entry
deriving DecidableEq

/-- Ascending code-point comparison of strings, Python `<` on `str`. -/
def strLt : Str → Str → Bool
  | [], [] => false
  | [], _ :: _ => true
  | _ :: _, [] => false
  | a :: as_, b :: bs => decide (a < b) || (decide (a = b) && strLt as_ bs)

/-- Insertion into an ascending list, used to model Python `sorted`. -/
def insertSorted (k : Str) : List Str → List Str
  | [] => [k]
  | x :: xs => if strLt k x then k :: x :: xs else x :: insertSorted k xs

/-- Python `sorted` on the dictionary keys (insertion sort; the keys are
distinct, so any stable ascending sort gives the same list). -/
def sortKeys (l : List Str) : List Str := l.foldr insertSorted []

/-- Method `save_results_as_json` (its pure part): count, PID identifier, and
one entry per key in ascending key order. -/
def save_results_as_json (piping_lines_data : List (Str × PInfo))
    (pid_identifier : Option Str) : Results :=
  { total_found := piping_lines_data.length
    pid_identifier := pid_identifier
    piping_lines :=
      (sortKeys (piping_lines_data.map Prod.fst)).filterMap fun k =>
        (lookupFirst k piping_lines_data).map fun v =>
          { piping_line_number := k
            text_line_number := v.1
            context := v.2.1
            coordinates := v.2.2 } }

/-- Steps 3 to 6 of method `process_pdf_to_piping_lines`: the pure
transformation from extracted text and layout spans to the assembled result
(PID extraction, identifier extraction, validation filter, result assembly). -/
def process_text_core (text : Str) (layout_info : List Span) : Results :=
  let pid_identifier := extract_pid_identifier text
  let piping_lines_data := extract_piping_line_numbers text layout_info
  let validated := piping_lines_data.filter (fun p => validate_piping_line p.1)
  save_results_as_json validated pid_identifier

/-! ## Document AI response model and layout flattening -/

/-- One vertex dictionary `{x, y}`; both fields optional (`.get(_, 0)`). -/
structure Vertex where
  x : Option Int
  y : Option Int
deriving DecidableEq

/-- Dictionary `boundingPoly`, with optional `vertices`. -/
structure BoundingPoly where
  vertices : Option (List Vertex)
deriving DecidableEq

/-- One `textSegments` element, indices optional with default 0. -/
structure Segment where
  startIndex : Option Nat
  endIndex : Option Nat
deriving DecidableEq

/-- Dictionary `textAnchor`, with optional `textSegments`. -/
structure TextAnchor where
  textSegments : Option (List Segment)
deriving DecidableEq

/-- Dictionary `token["layout"]`, with optional `textAnchor` and
`boundingPoly`. -/
structure TokenLayout where
  textAnchor : Option TextAnchor
  boundingPoly : Option BoundingPoly
deriving DecidableEq

/-- One token, with optional `layout`. -/
structure Token where
  layout : Option TokenLayout
deriving DecidableEq

/-- One page, with optional `tokens`. -/
structure Page where
  tokens : Option (List Token)
deriving DecidableEq

/-- The document dictionary returned by the external service, with optional
`text` and `pages`. -/
structure DocumentDict where
  text : Option Str
  pages : Option (List Page)
deriving DecidableEq

/-- The bounding-box computation inside the segment loop.  The source tests
`if vertices:` and then reads `vertices[0]` and `vertices[2]`; a nonempty
vertex list with fewer than 3 entries makes `vertices[2]` raise `IndexError`,
modelled as `Except.error`. -/
def bboxOfPoly (bp : Option BoundingPoly) : Except Unit (Option BBox) :=
  match bp with
  | none => .ok none
  | some poly =>
    let vertices := poly.vertices.getD []
    if vertices.isEmpty then .ok none
    else
      match vertices[0]?, vertices[2]? with
      | some v0, some v2 =>
        .ok (some
          { x := v0.x.getD 0
            y := v0.y.getD 0
            width := v2.x.getD 0 - v0.x.getD 0
            height := v2.y.getD 0 - v0.y.getD 0 })
      | _, _ => .error ()

/-- One `layout_info` entry built from a segment: Python slicing
`text[start:end]` is total, and the source clamps the snippet to the empty
string when the end index exceeds the text length. -/
def segSpan (text : Str) (seg : Segment) (bbox : Option BBox) : Span :=
  let start_idx := seg.startIndex.getD 0
  let end_idx := seg.endIndex.getD 0
  { start := start_idx
    stop := end_idx
    bbox := bbox
    text := if end_idx ≤ text.length then (text.take end_idx).drop start_idx else [] }

/-- Spans contributed by one token.  The bounding box is computed inside the
segment loop, so a token with an empty (or absent) segment list never touches
its vertices. -/
def spansOfToken (text : Str) (tok : Token) : Except Unit (List Span) :=
  match tok.layout with
  | none => .ok []
  | some lay =>
    match lay.textAnchor with
    | none => .ok []
    | some anchor =>
      match anchor.textSegments with
      | none => .ok []
      | some segs =>
        if segs.isEmpty then .ok []
        else
          (bboxOfPoly lay.boundingPoly).map fun bbox =>
            segs.map fun seg => segSpan text seg bbox

/-- Spans of a token list, in order. -/
def spansOfTokens (text : Str) : List Token → Except Unit (List Span)
  | [] => .ok []
  | t :: ts =>
    (spansOfToken text t).bind fun s1 =>
      (spansOfTokens text ts).map fun s2 => s1 ++ s2

/-- Spans of a page list, in order; a page without `tokens` contributes
nothing. -/
def spansOfPages (text : Str) : List Page → Except Unit (List Span)
  | [] => .ok []
  | p :: ps =>
    (spansOfTokens text (p.tokens.getD [])).bind fun s1 =>
      (spansOfPages text ps).map fun s2 => s1 ++ s2

/-- Method `extract_text_and_layout_from_document`: absent `text` and `pages`
are treated as empty; a raised `IndexError` from a short vertex list is
modelled as `Except.error`. -/
def extract_text_and_layout_from_document (doc : DocumentDict) :
    Except Unit (Str × List Span) :=
  let text := doc.text.getD []
  (spansOfPages text (doc.pages.getD [])).map fun spans => (text, spans)

/-! ## Spec-side definitions

These definitions follow the wording of the specification, to be compared
with the definitions embedded from the source. -/

/-- Validation rule of spec section 4.4, stated in the spec's words over an
uppercased candidate: exactly 4 dash-separated components; at least one letter
and one digit anywhere; total length in [7, 20]; first component contains a
digit; fourth component nonempty and solely alphanumeric. -/
def specValidPL (s : Str) : Prop :=
  (splitOnChar '-' s).length = 4 ∧
  (∃ c ∈ s, isAlphaC c = true) ∧
  (∃ c ∈ s, isDigitC c = true) ∧
  7 ≤ s.length ∧ s.length ≤ 20 ∧
  (∃ c ∈ (splitOnChar '-' s).headD [], isDigitC c = true) ∧
  (splitOnChar '-' s)[3]?.getD [] ≠ [] ∧
  (∀ c ∈ (splitOnChar '-' s)[3]?.getD [], isAlnumC c = true)

/-- Forget the coordinates of one mapping entry, keeping identifier, line
number and context. -/
def eraseCoords (p : Str × PInfo) : Str × Nat × Str := (p.1, p.2.1, p.2.2.1)

/-- Overlap test of spec section 4.3: the span and the match range `[sp, ep)`
intersect when neither is strictly before the other. -/
def overlapsSpec (l : Span) (sp ep : Nat) : Prop := sp < l.stop ∧ l.start < ep

/-- Coordinate resolution stated in the spec's words: the bounding box of the
first span that overlaps the match range and carries a bounding box. -/
def findOverlapSpec (spans : List Span) (sp ep : Nat) : Option BBox :=
  (spans.find? fun l =>
    decide (sp < l.stop) && decide (l.start < ep) && l.bbox.isSome).bind
    fun l => l.bbox

/-- Tokens whose vertex list the source can read without an index error: when
the token contributes at least one segment and carries a bounding polygon, its
vertex list is either empty or has at least the 3 entries the source expects. -/
def tokenVerticesOK (tok : Token) : Bool :=
  match tok.layout with
  | none => true
  | some lay =>
    match lay.textAnchor with
    | none => true
    | some anchor =>
      match anchor.textSegments with
      | none => true
      | some segs =>
        if segs.isEmpty then true
        else
          match lay.boundingPoly with
          | none => true
          | some poly =>
            (poly.vertices.getD []).isEmpty ||
              decide (3 ≤ (poly.vertices.getD []).length)

/-- A document every token of which passes `tokenVerticesOK`. -/
def docVerticesOK (doc : DocumentDict) : Bool :=
  (doc.pages.getD []).all fun page => (page.tokens.getD []).all tokenVerticesOK

/-- Segment decomposition of a matched substring: one segment per pattern
item, each within the item's character class and repetition bounds. -/
inductive ShapeOf : List RItem → Str → Prop
  | nil : ShapeOf [] []
  | cons (it : RItem) (its : List RItem) (seg rest : Str) :
      seg.all it.cls = true → it.lo ≤ seg.length → seg.length ≤ it.hi →
      ShapeOf its rest → ShapeOf (it :: its) (seg ++ rest)

/-! ### Concrete inputs used by the claims -/

/-- The end-to-end example text of spec section 8. -/
def exTextC2 : Str := ("Size 6\"-P-101-CS to reactor\nDWG. NO. XY-99-PID").data

/-- Two lines that normalize to the same identifier (spec section 8). -/
def dupText : Str := ("6-P-101-CS\n6\"-P-101-CS").data

/-- Document with one token whose bounding polygon has a single vertex while
contributing a text segment. -/
def badVertexDoc : DocumentDict :=
  { text := some ("ab").data
    pages := some
      [{ tokens := some
          [{ layout := some
              { textAnchor := some
                  { textSegments := some [{ startIndex := some 0, endIndex := some 2 }] }
                boundingPoly := some
                  { vertices := some [{ x := some 1, y := some 2 }] } } }] }] }

/-- Document exercising every optional field: absent page tokens, absent token
layout, absent anchor segments, an empty vertex list and an absent polygon. -/
def partialDoc : DocumentDict :=
  { text := some ("hello world").data
    pages := some
      [{ tokens := none },
       { tokens := some
          [{ layout := none },
           { layout := some { textAnchor := none, boundingPoly := none } },
           { layout := some
              { textAnchor := some { textSegments := none }
                boundingPoly := some { vertices := some [{ x := some 1, y := some 2 }] } } },
           { layout := some
              { textAnchor := some
                  { textSegments := some [{ startIndex := some 0, endIndex := some 5 }] }
                boundingPoly := some { vertices := some [] } } },
           { layout := some
              { textAnchor := some
                  { textSegments := some [{ startIndex := some 6, endIndex := some 99 }] }
                boundingPoly := none } }] }] }

/-! ## Lemmas on the string primitives -/

theorem splitOnChar_ne_nil (sep : Char) (s : Str) : splitOnChar sep s ≠ [] := by
  cases s with
  | nil => simp [splitOnChar]
  | cons c rest =>
    unfold splitOnChar
    by_cases h : c = sep
    · simp [h]
    · simp only [h, if_false]
      cases hs : splitOnChar sep rest <;> simp

theorem mem_splitOnChar_subset {sep : Char} {s : Str} :
    ∀ comp ∈ splitOnChar sep s, ∀ x ∈ comp, x ∈ s := by
  induction s with
  | nil =>
    intro comp hc x hx
    simp [splitOnChar] at hc
    subst hc
    simp at hx
  | cons c rest ih =>
    intro comp hc x hx
    unfold splitOnChar at hc
    by_cases h : c = sep
    · simp only [h, if_true] at hc
      rcases List.mem_cons.1 hc with h1 | h1
      · subst h1; simp at hx
      · exact List.mem_cons_of_mem _ (ih comp h1 x hx)
    · simp only [h, if_false] at hc
      cases hs : splitOnChar sep rest with
      | nil => exact absurd hs (splitOnChar_ne_nil sep rest)
      | cons comp0 comps =>
        rw [hs] at hc
        rcases List.mem_cons.1 hc with h1 | h1
        · subst h1
          rcases List.mem_cons.1 hx with h2 | h2
          · subst h2; exact List.mem_cons_self _ _
          · exact List.mem_cons_of_mem _ (ih comp0 (hs ▸ List.mem_cons_self _ _) x h2)
        · exact List.mem_cons_of_mem _ (ih comp (hs ▸ List.mem_cons_of_mem _ h1) x hx)

theorem splitOnChar_no_sep {sep : Char} {s : Str} :
    ∀ comp ∈ splitOnChar sep s, ∀ x ∈ comp, x ≠ sep := by
  induction s with
  | nil =>
    intro comp hc x hx
    simp [splitOnChar] at hc
    subst hc; simp at hx
  | cons c rest ih =>
    intro comp hc x hx
    unfold splitOnChar at hc
    by_cases h : c = sep
    · simp only [h, if_true] at hc
      rcases List.mem_cons.1 hc with h1 | h1
      · subst h1; simp at hx
      · exact ih comp h1 x hx
    · simp only [h, if_false] at hc
      cases hs : splitOnChar sep rest with
      | nil => exact absurd hs (splitOnChar_ne_nil sep rest)
      | cons comp0 comps =>
        rw [hs] at hc
        rcases List.mem_cons.1 hc with h1 | h1
        · subst h1
          rcases List.mem_cons.1 hx with h2 | h2
          · subst h2; exact h
          · exact ih comp0 (hs ▸ List.mem_cons_self _ _) x h2
        · exact ih comp (hs ▸ List.mem_cons_of_mem _ h1) x hx

theorem splitOnChar_of_no_sep {sep : Char} {s : Str} (h : ∀ x ∈ s, x ≠ sep) :
    splitOnChar sep s = [s] := by
  induction s with
  | nil => rfl
  | cons c rest ih =>
    unfold splitOnChar
    have hc : ¬ c = sep := h c (List.mem_cons_self _ _)
    simp only [hc, if_false]
    rw [ih (fun x hx => h x (List.mem_cons_of_mem _ hx))]

theorem splitOnChar_append {sep : Char} {xs ys : Str} (h : ∀ x ∈ xs, x ≠ sep) :
    splitOnChar sep (xs ++ sep :: ys) = xs :: splitOnChar sep ys := by
  induction xs with
  | nil => simp [splitOnChar]
  | cons x xs ih =>
    have hx : ¬ x = sep := h x (List.mem_cons_self _ _)
    rw [List.cons_append]
    conv_lhs => rw [splitOnChar]
    simp only [hx, if_false]
    rw [ih (fun a ha => h a (List.mem_cons_of_mem _ ha))]

theorem joinWith_splitOnChar (sep : Char) (s : Str) :
    joinWith sep (splitOnChar sep s) = s := by
  induction s with
  | nil => rfl
  | cons c rest ih =>
    unfold splitOnChar
    by_cases h : c = sep
    · simp only [h, if_true]
      cases hs : splitOnChar sep rest with
      | nil => exact absurd hs (splitOnChar_ne_nil sep rest)
      | cons z zs =>
        rw [hs] at ih
        show joinWith sep ([] :: z :: zs) = sep :: rest
        unfold joinWith
        rw [List.nil_append, ih]
    · simp only [h, if_false]
      cases hs : splitOnChar sep rest with
      | nil => exact absurd hs (splitOnChar_ne_nil sep rest)
      | cons z zs =>
        rw [hs] at ih
        cases zs with
        | nil =>
          show joinWith sep [c :: z] = c :: rest
          unfold joinWith
          simp only [joinWith] at ih
          rw [ih]
        | cons z2 zs2 =>
          show joinWith sep ((c :: z) :: z2 :: zs2) = c :: rest
          unfold joinWith
          simp only [joinWith] at ih
          rw [List.cons_append, ih]

theorem splitOnChar_joinWith {sep : Char} {comps : List Str} (hne : comps ≠ [])
    (h : ∀ comp ∈ comps, ∀ x ∈ comp, x ≠ sep) :
    splitOnChar sep (joinWith sep comps) = comps := by
  induction comps with
  | nil => exact absurd rfl hne
  | cons x xs ih =>
    cases xs with
    | nil =>
      show splitOnChar sep x = [x]
      exact splitOnChar_of_no_sep (h x (List.mem_cons_self _ _))
    | cons y ys =>
      show splitOnChar sep (x ++ sep :: joinWith sep (y :: ys)) = x :: y :: ys
      rw [splitOnChar_append (h x (List.mem_cons_self _ _))]
      rw [ih (by simp) (fun comp hc a ha => h comp (List.mem_cons_of_mem _ hc) a ha)]

theorem upChar_isDigitC (c : Char) : isDigitC (upChar c) = isDigitC c := by
  unfold upChar; split <;> rfl

theorem upChar_isAlphaC (c : Char) : isAlphaC (upChar c) = isAlphaC c := by
  unfold upChar; split <;> rfl

theorem upChar_eq_of_not_lower {c : Char} (h : isLowerC c = false) : upChar c = c := by
  unfold upChar; split <;> first | rfl | (exfalso; revert h; decide)

theorem upChar_ne_dash {c : Char} (h : c ≠ '-') : upChar c ≠ '-' := by
  unfold upChar; split <;> first | exact h | decide

theorem upChar_isSpaceC (c : Char) : isSpaceC (upChar c) = isSpaceC c := by
  unfold upChar; split <;> rfl

theorem isAlphaC_not_digit {c : Char} (h : isAlphaC c = true) : isDigitC c = false := by
  unfold isAlphaC isUpperC isLowerC at h
  unfold isDigitC
  simp only [Bool.or_eq_true, Bool.and_eq_true, decide_eq_true_eq] at h
  simp only [Bool.and_eq_false_iff, decide_eq_false_iff_not, not_le]
  omega

theorem isAlphaC_eq_isUpperC {c : Char} (h : isLowerC c = false) :
    isAlphaC c = isUpperC c := by
  unfold isAlphaC; rw [h, Bool.or_false]

theorem dropWhile_eq_self_of_none {p : Char → Bool} {l : Str}
    (h : ∀ x ∈ l, p x = false) : l.dropWhile p = l := by
  cases l with
  | nil => rfl
  | cons a as =>
    rw [List.dropWhile_cons_of_neg]
    simp [h a (List.mem_cons_self _ _)]

theorem stripStr_eq_self {s : Str} (h : ∀ x ∈ s, isSpaceC x = false) :
    stripStr s = s := by
  unfold stripStr
  rw [dropWhile_eq_self_of_none h]
  rw [dropWhile_eq_self_of_none (fun x hx => h x (List.mem_reverse.1 hx))]
  exact List.reverse_reverse s

theorem runLen_le_length (cls : Char → Bool) (s : Str) : runLen cls s ≤ s.length := by
  induction s with
  | nil => simp [runLen]
  | cons c rest ih =>
    unfold runLen
    by_cases h : cls c
    · simp [h]; omega
    · simp [h]

theorem runLen_take_all (cls : Char → Bool) (s : Str) :
    ∀ x ∈ s.take (runLen cls s), cls x = true := by
  induction s with
  | nil => simp [runLen]
  | cons c rest ih =>
    unfold runLen
    by_cases h : cls c
    · simp only [h, if_true, List.take_succ_cons]
      intro x hx
      rcases List.mem_cons.1 hx with h1 | h1
      · subst h1; exact h
      · exact ih x h1
    · simp [h]

-- C5: idempotence of normalization
theorem norm_comps_no_dash {s : Str} (first : Str) (rest : List Str)
    (hs : splitOnChar '-' s = first :: rest) :
    ∀ comp ∈ (first ++ ['"']) :: rest, ∀ x ∈ comp, x ≠ '-' := by
  intro comp hc x hx
  rcases List.mem_cons.1 hc with h1 | h1
  · subst h1
    rcases List.mem_append.1 hx with h2 | h2
    · exact splitOnChar_no_sep first (hs ▸ List.mem_cons_self _ _) x h2
    · simp at h2; subst h2; decide
  · exact splitOnChar_no_sep comp (hs ▸ List.mem_cons_of_mem _ h1) x hx

theorem normalize_split {s : Str} (first : Str) (rest : List Str)
    (hs : splitOnChar '-' s = first :: rest)
    (hnum : reFullMatchDollar isDigitC first = true) :
    splitOnChar '-' (normalize_piping_line s) = (first ++ ['"']) :: rest := by
  unfold normalize_piping_line
  rw [hs]
  dsimp only
  rw [if_pos hnum]
  exact splitOnChar_joinWith (by simp) (norm_comps_no_dash first rest hs)

theorem normalize_eq_self {s : Str} (first : Str) (rest : List Str)
    (hs : splitOnChar '-' s = first :: rest)
    (hnum : ¬ reFullMatchDollar isDigitC first = true) :
    normalize_piping_line s = s := by
  rw [normalize_piping_line, hs]
  dsimp only
  rw [if_neg hnum]

theorem reFullMatchDollar_append_quote (first : Str) :
    reFullMatchDollar isDigitC (first ++ ['"']) = false := by
  unfold reFullMatchDollar
  have hlast : (first ++ ['"']).getLast? = some '"' := by
    rw [List.getLast?_concat]
  rw [hlast]
  have hne : ¬ (some '"' = some '\n') := by decide
  rw [if_neg hne]
  have hall : ((first ++ ['"']).all isDigitC) = false := by
    rw [List.all_append]
    simp only [List.all_cons, List.all_nil, Bool.and_true]
    have : isDigitC '"' = false := by decide
    rw [this, Bool.and_false]
  dsimp only
  rw [hall, Bool.and_false]

theorem normalize_piping_line_idem (s : Str) :
    normalize_piping_line (normalize_piping_line s) = normalize_piping_line s := by
  cases hs : splitOnChar '-' s with
  | nil => exact absurd hs (splitOnChar_ne_nil '-' s)
  | cons first rest =>
    by_cases hnum : reFullMatchDollar isDigitC first = true
    · have hsplit := normalize_split first rest hs hnum
      refine normalize_eq_self (first ++ ['"']) rest hsplit ?hne
      rw [reFullMatchDollar_append_quote]
      exact Bool.false_ne_true
    · have h1 : normalize_piping_line s = s := normalize_eq_self first rest hs hnum
      rw [h1, h1]

theorem joinWith_length_app (sep q : Char) (a : Str) (rest : List Str) :
    (joinWith sep ((a ++ [q]) :: rest)).length = (joinWith sep (a :: rest)).length + 1 := by
  cases rest with
  | nil => simp [joinWith]
  | cons y ys => simp [joinWith]; omega

theorem normalize_ne_of_num {s : Str} (first : Str) (rest : List Str)
    (hs : splitOnChar '-' s = first :: rest)
    (hnum : reFullMatchDollar isDigitC first = true) :
    normalize_piping_line s ≠ s := by
  have hjoin : joinWith '-' (first :: rest) = s := by
    rw [← hs]; exact joinWith_splitOnChar '-' s
  rw [normalize_piping_line, hs]
  dsimp only
  rw [if_pos hnum]
  intro hcon
  have hlen := congrArg List.length hcon
  rw [joinWith_length_app] at hlen
  rw [hjoin] at hlen
  omega

theorem normalize_noop_iff (s : Str) :
    normalize_piping_line s = s ↔
      reFullMatchDollar isDigitC ((splitOnChar '-' s).headD []) = false := by
  cases hs : splitOnChar '-' s with
  | nil => exact absurd hs (splitOnChar_ne_nil '-' s)
  | cons first rest =>
    simp only [List.headD_cons]
    constructor
    · intro heq
      rcases Bool.eq_false_or_eq_true (reFullMatchDollar isDigitC first) with h | h
      · exact absurd heq (normalize_ne_of_num first rest hs h)
      · exact h
    · intro hnum
      refine normalize_eq_self first rest hs ?_
      rw [hnum]
      exact Bool.false_ne_true

theorem reFullMatchDollar_of_mem_quote {first : Str} (hq : '"' ∈ first) :
    reFullMatchDollar isDigitC first = false := by
  have hqd : isDigitC '"' = false := by decide
  unfold reFullMatchDollar
  by_cases h : first.getLast? = some '\n'
  · rw [if_pos h]
    have hne : first ≠ [] := by
      intro hcon
      rw [hcon] at hq
      simp at hq
    have hlast : first.getLast hne = '\n' := by
      have := List.getLast?_eq_getLast first hne
      rw [h] at this
      exact (Option.some.inj this).symm
    have hmem : '"' ∈ first.dropLast := by
      have hdecomp := List.dropLast_append_getLast hne
      rw [← hdecomp] at hq
      rcases List.mem_append.1 hq with h1 | h1
      · exact h1
      · rw [hlast] at h1
        simp at h1
    dsimp only
    rcases Bool.eq_false_or_eq_true (first.dropLast.all isDigitC) with hall | hall
    · exact absurd (List.all_eq_true.1 hall '"' hmem) (by decide)
    · rw [hall, Bool.and_false]
  · rw [if_neg h]
    dsimp only
    rcases Bool.eq_false_or_eq_true (first.all isDigitC) with hall | hall
    · exact absurd (List.all_eq_true.1 hall '"' hq) (by decide)
    · rw [hall, Bool.and_false]

theorem validate_eq_true_iff (s : Str) :
    validate_piping_line s = true ↔
      ((splitOnChar '-' s).length = 4 ∧ s.any isUpperC = true ∧ s.any isDigitC = true ∧
       7 ≤ s.length ∧ s.length ≤ 20 ∧
       ((splitOnChar '-' s).headD []).any isDigitC = true ∧
       matchesUpperAlnum ((splitOnChar '-' s)[3]?.getD []) = true) := by
  unfold validate_piping_line
  simp only [Bool.and_eq_true, decide_eq_true_eq, Bool.not_eq_true', Bool.or_eq_false_iff,
    decide_eq_false_iff_not, not_lt]
  constructor
  · rintro ⟨⟨⟨⟨⟨hl, hu⟩, hd⟩, hr⟩, hh⟩, hm⟩
    exact ⟨hl, hu, hd, hr.2, hr.1, hh, hm⟩
  · rintro ⟨hl, hu, hd, hlo, hhi, hh, hm⟩
    exact ⟨⟨⟨⟨⟨hl, hu⟩, hd⟩, hhi, hlo⟩, hh⟩, hm⟩

theorem mem_comp3_mem {s : Str} {x : Char}
    (hx : x ∈ (splitOnChar '-' s)[3]?.getD []) : x ∈ s := by
  cases h3 : (splitOnChar '-' s)[3]? with
  | none => rw [h3] at hx; simp at hx
  | some comp =>
    rw [h3] at hx
    simp only [Option.getD_some] at hx
    exact mem_splitOnChar_subset comp (List.getElem?_mem h3) x hx

theorem mem_headD_mem {s : Str} {x : Char}
    (hx : x ∈ (splitOnChar '-' s).headD []) : x ∈ s := by
  cases h : splitOnChar '-' s with
  | nil => exact absurd h (splitOnChar_ne_nil '-' s)
  | cons first rest =>
    rw [h] at hx
    simp only [List.headD_cons] at hx
    exact mem_splitOnChar_subset first (h ▸ List.mem_cons_self _ _) x hx

/-- Claim C1 core. -/
theorem validate_iff_spec (s : Str) (hnl : ∀ c ∈ s, isLowerC c = false) :
    validate_piping_line s = true ↔ specValidPL s := by
  rw [validate_eq_true_iff]
  unfold specValidPL
  have hup : ∀ c ∈ s, isUpperC c = isAlphaC c := fun c hc =>
    (isAlphaC_eq_isUpperC (hnl c hc)).symm
  constructor
  · rintro ⟨hl, hu, hd, hlo, hhi, hh, hm⟩
    refine ⟨hl, ?balpha, ?bdigit, hlo, hhi, ?bhead, ?bne, ?balnum⟩
    case balpha =>
      rcases List.any_eq_true.1 hu with ⟨c, hc, hcu⟩
      exact ⟨c, hc, (hup c hc) ▸ hcu⟩
    case bdigit => exact List.any_eq_true.1 hd
    case bhead =>
      rcases List.any_eq_true.1 hh with ⟨c, hc, hcd⟩
      exact ⟨c, hc, hcd⟩
    case bne =>
      unfold matchesUpperAlnum at hm
      rw [Bool.and_eq_true] at hm
      exact of_decide_eq_true hm.1
    case balnum =>
      unfold matchesUpperAlnum at hm
      rw [Bool.and_eq_true] at hm
      intro c hc
      have := List.all_eq_true.1 hm.2 c hc
      rw [Bool.or_eq_true] at this
      rcases this with h | h
      · unfold isAlnumC isAlphaC
        rw [h]
        simp
      · unfold isAlnumC
        rw [h]
        simp
  · rintro ⟨hl, ⟨ca, hca, hcau⟩, hdig, hlo, hhi, ⟨ch, hch, hchd⟩, hne, hall⟩
    refine ⟨hl, ?aup, List.any_eq_true.2 hdig, hlo, hhi, ?ahead, ?amatch⟩
    case aup => exact List.any_eq_true.2 ⟨ca, hca, (hup ca hca).symm ▸ hcau⟩
    case ahead => exact List.any_eq_true.2 ⟨ch, hch, hchd⟩
    case amatch =>
      unfold matchesUpperAlnum
      rw [Bool.and_eq_true]
      refine ⟨decide_eq_true hne, List.all_eq_true.2 ?_⟩
      intro c hc
      have halc := hall c hc
      have hcs : c ∈ s := mem_comp3_mem hc
      unfold isAlnumC at halc
      rw [Bool.or_eq_true] at halc
      rcases halc with h | h
      · rw [← hup c hcs] at h
        rw [h]
        simp
      · rw [h]
        simp

/-! ### The map as first-wins fold over the candidate stream -/

theorem containsKey_iff_lookup {m : List (Str × PInfo)} {k : Str} :
    m.any (fun p => decide (p.1 = k)) = true ↔ (lookupFirst k m).isSome := by
  induction m with
  | nil => simp [lookupFirst]
  | cons p rest ih =>
    by_cases h : p.1 = k
    · simp [lookupFirst, h]
    · simp only [List.any_cons, Bool.or_eq_true, decide_eq_true_eq, h, false_or]
      rw [lookupFirst, if_neg h]
      exact ih

theorem lookupFirst_append_single {m : List (Str × PInfo)} {k k2 : Str} {v : PInfo} :
    lookupFirst k (m ++ [(k2, v)]) =
      ((lookupFirst k m).orElse (fun _ => if k2 = k then some v else none)) := by
  induction m with
  | nil => simp [lookupFirst]
  | cons p rest ih =>
    by_cases h : p.1 = k
    · simp [lookupFirst, h, Option.orElse]
    · rw [List.cons_append, lookupFirst, if_neg h, lookupFirst, if_neg h]
      exact ih

theorem lookupFirst_insertFirst {m : List (Str × PInfo)} {k k2 : Str} {v : PInfo} :
    lookupFirst k (insertFirst m k2 v) =
      ((lookupFirst k m).orElse (fun _ => if k2 = k then some v else none)) := by
  unfold insertFirst
  by_cases hc : m.any (fun p => decide (p.1 = k2)) = true
  · rw [if_pos hc]
    by_cases hk : k2 = k
    · subst hk
      rcases Option.isSome_iff_exists.1 (containsKey_iff_lookup.1 hc) with ⟨w, hw⟩
      rw [hw]
      simp [Option.orElse]
    · cases hl : lookupFirst k m <;> simp [Option.orElse, hk]
  · rw [if_neg hc]
    exact lookupFirst_append_single

theorem lookupFirst_foldInsert (cands : List (Str × PInfo)) :
    ∀ (m : List (Str × PInfo)) (k : Str),
      lookupFirst k (foldInsert m cands) =
        ((lookupFirst k m).orElse (fun _ => lookupFirst k cands)) := by
  induction cands with
  | nil =>
    intro m k
    cases h : lookupFirst k m <;> simp [foldInsert, lookupFirst, h, Option.orElse]
  | cons p rest ih =>
    intro m k
    show lookupFirst k (foldInsert (insertFirst m p.1 p.2) rest) = _
    rw [ih]
    rw [lookupFirst_insertFirst]
    rw [lookupFirst]
    by_cases hk : p.1 = k
    · rw [if_pos hk]
      cases hl : lookupFirst k m <;> simp [Option.orElse, hk]
    · rw [if_neg hk]
      cases hl : lookupFirst k m <;> simp [Option.orElse, hk]

theorem foldInsert_append (m : List (Str × PInfo)) (a b : List (Str × PInfo)) :
    foldInsert m (a ++ b) = foldInsert (foldInsert m a) b :=
  List.foldl_append ..

theorem foldl_processMatch_eq (text : Str) (layout_info : List Span) (line : Str)
    (line_num : Nat) (mts : List Str) :
    ∀ m, mts.foldl (processMatch text layout_info line line_num) m =
      foldInsert m (mts.filterMap (candOfMatch text layout_info line line_num)) := by
  induction mts with
  | nil => intro m; rfl
  | cons mt rest ih =>
    intro m
    rw [List.foldl_cons, List.filterMap_cons]
    cases h : candOfMatch text layout_info line line_num mt with
    | none =>
      rw [ih]
      congr 1
      unfold processMatch
      rw [h]
    | some p =>
      rw [ih]
      show _ = foldInsert m (p :: _)
      unfold foldInsert
      rw [List.foldl_cons]
      congr 1
      unfold processMatch
      rw [h]

theorem processLine_eq (text : Str) (layout_info : List Span) (line : Str)
    (line_num : Nat) (m : List (Str × PInfo)) :
    processLine text layout_info line line_num m =
      foldInsert m (lineCands text layout_info line line_num) := by
  unfold processLine lineCands patternList
  simp only [List.foldl_cons, List.foldl_nil, List.map_cons, List.map_nil,
    List.flatten_cons, List.flatten_nil, List.append_nil, List.filterMap_append]
  rw [foldl_processMatch_eq, foldl_processMatch_eq, foldl_processMatch_eq]
  rw [foldInsert_append, foldInsert_append]

theorem extractFromLines_eq (text : Str) (layout_info : List Span) :
    ∀ (ls : List Str) (line_num : Nat) (m : List (Str × PInfo)),
      extractFromLines text layout_info line_num ls m =
        foldInsert m (streamFromLines text layout_info line_num ls) := by
  intro ls
  induction ls with
  | nil => intro line_num m; rfl
  | cons line rest ih =>
    intro line_num m
    show extractFromLines text layout_info (line_num + 1) rest
        (processLine text layout_info line line_num m) = _
    rw [ih, processLine_eq]
    show _ = foldInsert m (lineCands text layout_info line line_num ++
      streamFromLines text layout_info (line_num + 1) rest)
    rw [foldInsert_append]

theorem extract_eq_foldInsert (text : Str) (layout_info : List Span) :
    extract_piping_line_numbers text layout_info =
      foldInsert [] (candidateStream text layout_info) :=
  extractFromLines_eq text layout_info _ 1 []

/-- First-wins lookup description of the extraction map. -/
theorem lookup_extract_eq_stream (text : Str) (layout_info : List Span) (k : Str) :
    lookupFirst k (extract_piping_line_numbers text layout_info) =
      lookupFirst k (candidateStream text layout_info) := by
  rw [extract_eq_foldInsert, lookupFirst_foldInsert]
  simp [lookupFirst, Option.orElse]

/-! ### Membership in the extraction map comes from the candidate stream -/

theorem mem_insertFirst {p : Str × PInfo} {m : List (Str × PInfo)} {k : Str} {v : PInfo}
    (h : p ∈ insertFirst m k v) : p ∈ m ∨ p = (k, v) := by
  unfold insertFirst at h
  by_cases hc : m.any (fun q => decide (q.1 = k)) = true
  · rw [if_pos hc] at h; exact Or.inl h
  · rw [if_neg hc] at h
    rcases List.mem_append.1 h with h1 | h1
    · exact Or.inl h1
    · simp at h1; exact Or.inr h1

theorem mem_foldInsert {p : Str × PInfo} {cands : List (Str × PInfo)} :
    ∀ {m : List (Str × PInfo)}, p ∈ foldInsert m cands → p ∈ m ∨ p ∈ cands := by
  induction cands with
  | nil => intro m h; exact Or.inl h
  | cons q rest ih =>
    intro m h
    rcases ih (m := insertFirst m q.1 q.2) h with h1 | h1
    · rcases mem_insertFirst h1 with h2 | h2
      · exact Or.inl h2
      · exact Or.inr (h2 ▸ List.mem_cons_self _ _)
    · exact Or.inr (List.mem_cons_of_mem _ h1)

theorem mem_extract_stream {p : Str × PInfo} {text : Str} {layout_info : List Span}
    (h : p ∈ extract_piping_line_numbers text layout_info) :
    p ∈ candidateStream text layout_info := by
  rw [extract_eq_foldInsert] at h
  rcases mem_foldInsert h with h1 | h1
  · simp at h1
  · exact h1

theorem mem_streamFromLines {p : Str × PInfo} {text : Str} {layout_info : List Span} :
    ∀ {ls : List Str} {line_num : Nat},
      p ∈ streamFromLines text layout_info line_num ls →
      ∃ line ∈ ls, ∃ lnum, p ∈ lineCands text layout_info line lnum := by
  intro ls
  induction ls with
  | nil => intro line_num h; simp [streamFromLines] at h
  | cons line rest ih =>
    intro line_num h
    unfold streamFromLines at h
    rcases List.mem_append.1 h with h1 | h1
    · exact ⟨line, List.mem_cons_self _ _, line_num, h1⟩
    · rcases ih h1 with ⟨l2, hl2, lnum, hp⟩
      exact ⟨l2, List.mem_cons_of_mem _ hl2, lnum, hp⟩

theorem mem_lineCands {p : Str × PInfo} {text : Str} {layout_info : List Span}
    {line : Str} {line_num : Nat}
    (h : p ∈ lineCands text layout_info line line_num) :
    ∃ pat ∈ patternList, ∃ mt ∈ findall pat line,
      candOfMatch text layout_info line line_num mt = some p := by
  unfold lineCands at h
  rcases List.mem_filterMap.1 h with ⟨mt, hmt, hc⟩
  rcases List.mem_flatten.1 hmt with ⟨ml, hml, hmem⟩
  rcases List.mem_map.1 hml with ⟨pat, hpat, hml2⟩
  exact ⟨pat, hpat, mt, hml2 ▸ hmem, hc⟩

/-! ### Coordinate lookup with an empty span list -/

theorem find_coordinates_nil (target_text text : Str) :
    find_coordinates_for_text target_text text [] = none := by
  unfold find_coordinates_for_text
  cases findSub (upperStr text) (upperStr target_text) <;> rfl

theorem candOfMatch_coords_nil {text line mt : Str} {line_num : Nat} {p : Str × PInfo}
    (h : candOfMatch text [] line line_num mt = some p) : p.2.2.2 = none := by
  unfold candOfMatch at h
  by_cases hc : (upperStr (stripStr mt)).contains '-' ∧
      (upperStr (stripStr mt)).any isUpperC
  · rw [if_pos hc] at h
    rw [find_coordinates_nil] at h
    cases h
    rfl
  · rw [if_neg hc] at h
    cases h

theorem extract_nil_coords_none {text : Str} {p : Str × PInfo}
    (h : p ∈ extract_piping_line_numbers text []) : p.2.2.2 = none := by
  rcases mem_streamFromLines (mem_extract_stream h) with ⟨line, _, lnum, hp⟩
  rcases mem_lineCands hp with ⟨pat, _, mt, _, hc⟩
  exact candOfMatch_coords_nil hc

/-! ### The span list does not influence which identifiers are extracted -/

theorem candOfMatch_erase (text line mt : Str) (line_num : Nat)
    (A B : List Span) :
    (candOfMatch text A line line_num mt).map eraseCoords =
      (candOfMatch text B line line_num mt).map eraseCoords := by
  unfold candOfMatch
  by_cases hc : (upperStr (stripStr mt)).contains '-' ∧
      (upperStr (stripStr mt)).any isUpperC
  · rw [if_pos hc, if_pos hc]
    rfl
  · rw [if_neg hc, if_neg hc]

theorem any_key_of_erase {k : Str} : ∀ {m1 m2 : List (Str × PInfo)},
    m1.map eraseCoords = m2.map eraseCoords →
    m1.any (fun p => decide (p.1 = k)) = m2.any (fun p => decide (p.1 = k)) := by
  intro m1
  induction m1 with
  | nil =>
    intro m2 h
    cases m2 with
    | nil => rfl
    | cons q qs => simp at h
  | cons p ps ih =>
    intro m2 h
    cases m2 with
    | nil => simp at h
    | cons q qs =>
      simp only [List.map_cons, List.cons.injEq] at h
      have hk : p.1 = q.1 := by
        have := congrArg Prod.fst h.1
        simpa [eraseCoords] using this
      rw [List.any_cons, List.any_cons, hk, ih h.2]

theorem insertFirst_erase {m1 m2 : List (Str × PInfo)} {k : Str} {v1 v2 : PInfo}
    (h : m1.map eraseCoords = m2.map eraseCoords)
    (hv : eraseCoords (k, v1) = eraseCoords (k, v2)) :
    (insertFirst m1 k v1).map eraseCoords = (insertFirst m2 k v2).map eraseCoords := by
  unfold insertFirst
  rw [any_key_of_erase h]
  by_cases hc : m2.any (fun p => decide (p.1 = k)) = true
  · rw [if_pos hc, if_pos hc]; exact h
  · rw [if_neg hc, if_neg hc]
    rw [List.map_append, List.map_append, h]
    simp [hv]

theorem foldInsert_erase : ∀ {cands1 cands2 m1 m2 : List (Str × PInfo)},
    m1.map eraseCoords = m2.map eraseCoords →
    cands1.map eraseCoords = cands2.map eraseCoords →
    (foldInsert m1 cands1).map eraseCoords = (foldInsert m2 cands2).map eraseCoords := by
  intro cands1
  induction cands1 with
  | nil =>
    intro cands2 m1 m2 hm hc
    cases cands2 with
    | nil => exact hm
    | cons q qs => simp at hc
  | cons p ps ih =>
    intro cands2 m1 m2 hm hc
    cases cands2 with
    | nil => simp at hc
    | cons q qs =>
      simp only [List.map_cons, List.cons.injEq] at hc
      have hk : p.1 = q.1 := by
        have := congrArg Prod.fst hc.1
        simpa [eraseCoords] using this
      show (foldInsert (insertFirst m1 p.1 p.2) ps).map eraseCoords =
        (foldInsert (insertFirst m2 q.1 q.2) qs).map eraseCoords
      refine ih ?_ hc.2
      rw [← hk]
      refine insertFirst_erase hm ?_
      show eraseCoords p = eraseCoords (p.1, q.2)
      rw [hc.1, hk]

theorem lineCands_erase (text line : Str) (line_num : Nat) (A B : List Span) :
    (lineCands text A line line_num).map eraseCoords =
      (lineCands text B line line_num).map eraseCoords := by
  unfold lineCands
  rw [List.map_filterMap, List.map_filterMap]
  congr 1
  funext mt
  exact candOfMatch_erase text line mt line_num A B

theorem streamFromLines_erase (text : Str) (A B : List Span) :
    ∀ (ls : List Str) (line_num : Nat),
      (streamFromLines text A line_num ls).map eraseCoords =
        (streamFromLines text B line_num ls).map eraseCoords := by
  intro ls
  induction ls with
  | nil => intro line_num; rfl
  | cons line rest ih =>
    intro line_num
    unfold streamFromLines
    rw [List.map_append, List.map_append, ih, lineCands_erase]

theorem extract_erase (text : Str) (A B : List Span) :
    (extract_piping_line_numbers text A).map eraseCoords =
      (extract_piping_line_numbers text B).map eraseCoords := by
  rw [extract_eq_foldInsert, extract_eq_foldInsert]
  exact foldInsert_erase rfl (streamFromLines_erase text A B _ 1)

/-! ### The overlap scan agrees with the spec description -/

theorem findOverlap_eq_spec : ∀ (spans : List Span) (sp ep : Nat), sp < ep →
    (∀ l ∈ spans, l.start < l.stop) →
    findOverlapBBox spans sp ep = findOverlapSpec spans sp ep := by
  intro spans
  induction spans with
  | nil => intro sp ep _ _; rfl
  | cons l rest ih =>
    intro sp ep hse hwf
    have hl : l.start < l.stop := hwf l (List.mem_cons_self _ _)
    have hrest : ∀ x ∈ rest, x.start < x.stop :=
      fun x hx => hwf x (List.mem_cons_of_mem _ hx)
    have hiff : ((l.start ≤ sp ∧ sp < l.stop) ∨ (l.start < ep ∧ ep ≤ l.stop) ∨
        (sp ≤ l.start ∧ l.start < ep)) ↔ (sp < l.stop ∧ l.start < ep) := by omega
    unfold findOverlapBBox findOverlapSpec
    by_cases ho : sp < l.stop ∧ l.start < ep
    · rw [if_pos (hiff.2 ho)]
      cases hb : l.bbox with
      | some b =>
        rw [List.find?_cons_of_pos]
        · simp [hb]
        · simp [ho.1, ho.2, hb]
      | none =>
        rw [List.find?_cons_of_neg]
        · show findOverlapBBox rest sp ep = _
          exact ih sp ep hse hrest
        · simp [hb]
    · rw [if_neg (fun hcon => ho (hiff.1 hcon))]
      rw [List.find?_cons_of_neg]
      · exact ih sp ep hse hrest
      · intro hcon
        simp only [Bool.and_eq_true, decide_eq_true_eq] at hcon
        exact ho ⟨hcon.1.1, hcon.1.2⟩

theorem find_coordinates_of_findSub_none {target_text text : Str} (spans : List Span)
    (h : findSub (upperStr text) (upperStr target_text) = none) :
    find_coordinates_for_text target_text text spans = none := by
  unfold find_coordinates_for_text
  rw [h]

/-! ### Ordering of strings -/

theorem strLt_asymm : ∀ {a b : Str}, strLt a b = true → strLt b a = false := by
  intro a
  induction a with
  | nil =>
    intro b h
    cases b with
    | nil => simp [strLt] at h
    | cons x xs => rfl
  | cons x xs ih =>
    intro b h
    cases b with
    | nil => simp [strLt] at h
    | cons y ys =>
      unfold strLt at h ⊢
      simp only [Bool.or_eq_true, Bool.and_eq_true, decide_eq_true_eq] at h
      simp only [Bool.or_eq_false_iff, Bool.and_eq_false_iff, decide_eq_false_iff_not]
      rcases h with h | ⟨heq, hlt⟩
      · exact ⟨not_lt_of_lt h, Or.inl (fun hcon => absurd (hcon ▸ h) (lt_irrefl y))⟩
      · subst heq
        exact ⟨lt_irrefl x, Or.inr (ih hlt)⟩

theorem strLt_total : ∀ (a b : Str), strLt a b = true ∨ a = b ∨ strLt b a = true := by
  intro a
  induction a with
  | nil =>
    intro b
    cases b with
    | nil => exact Or.inr (Or.inl rfl)
    | cons y ys => exact Or.inl rfl
  | cons x xs ih =>
    intro b
    cases b with
    | nil => exact Or.inr (Or.inr rfl)
    | cons y ys =>
      rcases lt_trichotomy x y with h | h | h
      · refine Or.inl ?_
        unfold strLt
        simp [h]
      · subst h
        rcases ih ys with h2 | h2 | h2
        · refine Or.inl ?_
          unfold strLt
          simp [h2]
        · exact Or.inr (Or.inl (h2 ▸ rfl))
        · refine Or.inr (Or.inr ?_)
          unfold strLt
          simp [h2]
      · refine Or.inr (Or.inr ?_)
        unfold strLt
        simp [h]

theorem strLt_trans : ∀ {a b c : Str}, strLt a b = true → strLt b c = true →
    strLt a c = true := by
  intro a
  induction a with
  | nil =>
    intro b c hab hbc
    cases c with
    | nil =>
      cases b with
      | nil => exact hab
      | cons y ys => simp [strLt] at hbc
    | cons z zs => rfl
  | cons x xs ih =>
    intro b c hab hbc
    cases b with
    | nil => simp [strLt] at hab
    | cons y ys =>
      cases c with
      | nil => simp [strLt] at hbc
      | cons z zs =>
        unfold strLt at hab hbc ⊢
        simp only [Bool.or_eq_true, Bool.and_eq_true, decide_eq_true_eq] at hab hbc ⊢
        rcases hab with h1 | ⟨he1, ht1⟩
        · rcases hbc with h2 | ⟨he2, ht2⟩
          · exact Or.inl (lt_trans h1 h2)
          · exact Or.inl (he2 ▸ h1)
        · subst he1
          rcases hbc with h2 | ⟨he2, ht2⟩
          · exact Or.inl h2
          · subst he2
            exact Or.inr ⟨rfl, ih ht1 ht2⟩

/-! ### Sorting the identifier keys -/

theorem insertSorted_perm (k : Str) : ∀ l : List Str, (insertSorted k l).Perm (k :: l) := by
  intro l
  induction l with
  | nil => exact List.Perm.refl _
  | cons x xs ih =>
    unfold insertSorted
    by_cases h : strLt k x = true
    · rw [if_pos h]
    · rw [if_neg h]
      exact (ih.cons x).trans (List.Perm.swap k x xs)

theorem sortKeys_perm : ∀ l : List Str, (sortKeys l).Perm l := by
  intro l
  induction l with
  | nil => exact List.Perm.refl _
  | cons x xs ih =>
    show (insertSorted x (sortKeys xs)).Perm (x :: xs)
    exact (insertSorted_perm x (sortKeys xs)).trans (ih.cons x)

theorem pairwise_insertSorted {k : Str} :
    ∀ {l : List Str}, l.Pairwise (fun a b => strLt b a = false) →
      (insertSorted k l).Pairwise (fun a b => strLt b a = false) := by
  intro l
  induction l with
  | nil => intro _; simp [insertSorted]
  | cons x xs ih =>
    intro hp
    rcases List.pairwise_cons.1 hp with ⟨hx, hxs⟩
    unfold insertSorted
    by_cases h : strLt k x = true
    · rw [if_pos h]
      refine List.pairwise_cons.2 ⟨?_, hp⟩
      intro y hy
      rcases List.mem_cons.1 hy with h1 | h1
      · subst h1; exact strLt_asymm h
      · rcases Bool.eq_false_or_eq_true (strLt y k) with h2 | h2
        · have := strLt_trans h2 h
          rw [hx y h1] at this
          exact absurd this (by simp)
        · exact h2
    · rw [if_neg h]
      refine List.pairwise_cons.2 ⟨?_, ih hxs⟩
      intro y hy
      rcases List.mem_cons.1 (((insertSorted_perm k xs).mem_iff).1 hy) with h1 | h1
      · subst h1
        exact Bool.not_eq_true _ ▸ h
      · exact hx y h1

theorem sortKeys_sorted : ∀ l : List Str,
    (sortKeys l).Pairwise (fun a b => strLt b a = false) := by
  intro l
  induction l with
  | nil => simp [sortKeys]
  | cons x xs ih => exact pairwise_insertSorted ih

theorem sortKeys_sorted_strict {l : List Str} (h : l.Nodup) :
    (sortKeys l).Pairwise (fun a b => strLt a b = true) := by
  have hnd : (sortKeys l).Nodup := ((sortKeys_perm l).symm).nodup h
  have := (sortKeys_sorted l).and hnd
  refine this.imp ?_
  intro a b hab
  rcases strLt_total a b with h1 | h1 | h1
  · exact h1
  · exact absurd h1 hab.2
  · rw [hab.1] at h1
    exact absurd h1 (by simp)

/-! ### Keys of the extraction map are distinct -/

theorem contains_iff_mem_keys {m : List (Str × PInfo)} {k : Str} :
    m.any (fun p => decide (p.1 = k)) = true ↔ k ∈ m.map Prod.fst := by
  rw [List.any_eq_true]
  constructor
  · rintro ⟨p, hp, hpk⟩
    exact List.mem_map.2 ⟨p, hp, of_decide_eq_true hpk⟩
  · intro h
    rcases List.mem_map.1 h with ⟨p, hp, hpk⟩
    exact ⟨p, hp, decide_eq_true hpk⟩

theorem nodup_keys_insertFirst {m : List (Str × PInfo)} {k : Str} {v : PInfo}
    (h : (m.map Prod.fst).Nodup) : ((insertFirst m k v).map Prod.fst).Nodup := by
  unfold insertFirst
  by_cases hc : m.any (fun p => decide (p.1 = k)) = true
  · rw [if_pos hc]; exact h
  · rw [if_neg hc]
    rw [List.map_append]
    apply List.Nodup.append h (by simp)
    intro a ha hb
    simp only [List.map_cons, List.map_nil, List.mem_singleton] at hb
    subst hb
    exact hc (contains_iff_mem_keys.2 ha)

theorem nodup_keys_foldInsert : ∀ {cands m : List (Str × PInfo)},
    (m.map Prod.fst).Nodup → ((foldInsert m cands).map Prod.fst).Nodup := by
  intro cands
  induction cands with
  | nil => intro m h; exact h
  | cons p rest ih =>
    intro m h
    exact ih (nodup_keys_insertFirst h)

theorem nodup_keys_extract (text : Str) (layout_info : List Span) :
    ((extract_piping_line_numbers text layout_info).map Prod.fst).Nodup := by
  rw [extract_eq_foldInsert]
  exact nodup_keys_foldInsert (by simp)

theorem nodup_keys_filter (m : List (Str × PInfo)) (p : Str × PInfo → Bool)
    (h : (m.map Prod.fst).Nodup) : ((m.filter p).map Prod.fst).Nodup :=
  h.sublist ((List.filter_sublist m).map Prod.fst)

theorem lookupFirst_isSome_of_mem_keys {m : List (Str × PInfo)} {k : Str}
    (h : k ∈ m.map Prod.fst) : ∃ v, lookupFirst k m = some v := by
  induction m with
  | nil => simp at h
  | cons p rest ih =>
    by_cases hk : p.1 = k
    · exact ⟨p.2, by rw [lookupFirst, if_pos hk]⟩
    · have : k ∈ rest.map Prod.fst := by
        rcases List.mem_map.1 h with ⟨q, hq, hqk⟩
        rcases List.mem_cons.1 hq with h1 | h1
        · exact absurd (h1 ▸ hqk) hk
        · exact List.mem_map.2 ⟨q, h1, hqk⟩
      rcases ih this with ⟨v, hv⟩
      exact ⟨v, by rw [lookupFirst, if_neg hk]; exact hv⟩

theorem lookupFirst_mem {m : List (Str × PInfo)} {k : Str} {v : PInfo}
    (h : lookupFirst k m = some v) : (k, v) ∈ m := by
  induction m with
  | nil => simp [lookupFirst] at h
  | cons p rest ih =>
    by_cases hk : p.1 = k
    · rw [lookupFirst, if_pos hk] at h
      cases h
      have : (k, p.2) = p := by
        rw [← hk]
      rw [this]
      exact List.mem_cons_self _ _
    · rw [lookupFirst, if_neg hk] at h
      exact List.mem_cons_of_mem _ (ih h)

theorem filterMap_length_of_some {α β : Type} {l : List α} {f : α → Option β}
    (h : ∀ x ∈ l, (f x).isSome) : (l.filterMap f).length = l.length := by
  induction l with
  | nil => rfl
  | cons x xs ih =>
    rw [List.filterMap_cons]
    rcases Option.isSome_iff_exists.1 (h x (List.mem_cons_self _ _)) with ⟨b, hb⟩
    rw [hb]
    simp only [List.length_cons]
    rw [ih (fun a ha => h a (List.mem_cons_of_mem _ ha))]

/-! ### Properties of the assembled result -/

theorem save_entry_lookup {data : List (Str × PInfo)} {pid : Option Str} {e : Entry}
    (h : e ∈ (save_results_as_json data pid).piping_lines) :
    lookupFirst e.piping_line_number data =
      some (e.text_line_number, e.context, e.coordinates) := by
  unfold save_results_as_json at h
  rcases List.mem_filterMap.1 h with ⟨k, _, hf⟩
  cases hl : lookupFirst k data with
  | none => rw [hl] at hf; cases hf
  | some v =>
    rw [hl] at hf
    simp only [Option.map_some'] at hf
    cases hf
    exact hl

theorem save_entry_key_mem {data : List (Str × PInfo)} {pid : Option Str} {e : Entry}
    (h : e ∈ (save_results_as_json data pid).piping_lines) :
    e.piping_line_number ∈ data.map Prod.fst := by
  have := lookupFirst_mem (save_entry_lookup h)
  exact List.mem_map.2 ⟨_, this, rfl⟩

theorem save_entry_id {data : List (Str × PInfo)} {k : Str} {e : Entry}
    (hf : (lookupFirst k data).map (fun v =>
        { piping_line_number := k
          text_line_number := v.1
          context := v.2.1
          coordinates := v.2.2 : Entry }) = some e) :
    e.piping_line_number = k := by
  cases hl : lookupFirst k data with
  | none => rw [hl] at hf; cases hf
  | some v =>
    rw [hl] at hf
    simp only [Option.map_some'] at hf
    cases hf
    rfl

theorem save_sorted {data : List (Str × PInfo)} {pid : Option Str}
    (hnd : (data.map Prod.fst).Nodup) :
    (save_results_as_json data pid).piping_lines.Pairwise
      (fun a b => strLt a.piping_line_number b.piping_line_number = true) := by
  unfold save_results_as_json
  rw [List.pairwise_filterMap]
  refine (sortKeys_sorted_strict hnd).imp ?_
  intro a b hab x hx y hy
  rw [save_entry_id hx, save_entry_id hy]
  exact hab

theorem save_length {data : List (Str × PInfo)} {pid : Option Str} :
    (save_results_as_json data pid).total_found =
      (save_results_as_json data pid).piping_lines.length := by
  show data.length = _
  unfold save_results_as_json
  rw [filterMap_length_of_some]
  · rw [(sortKeys_perm (data.map Prod.fst)).length_eq, List.length_map]
  · intro k hk
    have hmem : k ∈ data.map Prod.fst := (sortKeys_perm _).mem_iff.1 hk
    rcases lookupFirst_isSome_of_mem_keys hmem with ⟨v, hv⟩
    rw [hv]
    rfl

/-! ### Matched substrings decompose along the pattern items -/

theorem runLen_take_length (cls : Char → Bool) (s : Str) :
    (s.take (runLen cls s)).length = runLen cls s :=
  List.length_take_of_le (runLen_le_length cls s)

theorem shapeOf_matchItems : ∀ (items : List RItem) (s : Str) (n : Nat),
    matchItems items s = some n → ShapeOf items (s.take n) := by
  intro items
  induction items with
  | nil =>
    intro s n h
    unfold matchItems at h
    cases h
    exact ShapeOf.nil
  | cons it its ih =>
    intro s n h
    unfold matchItems at h
    by_cases hc : it.lo ≤ runLen it.cls s ∧ runLen it.cls s ≤ it.hi
    · rw [if_pos hc] at h
      cases hm : matchItems its (s.drop (runLen it.cls s)) with
      | none => rw [hm] at h; cases h
      | some m =>
        rw [hm] at h
        simp only [Option.map_some'] at h
        cases h
        rw [List.take_add]
        refine ShapeOf.cons it its _ _ ?_ ?_ ?_ (ih _ m hm)
        · exact List.all_eq_true.2 (runLen_take_all it.cls s)
        · rw [runLen_take_length]; exact hc.1
        · rw [runLen_take_length]; exact hc.2
    · rw [if_neg hc] at h
      cases h

theorem matchPatAt_matchItems {items : List RItem} {prev : Option Char} {s : Str} {n : Nat}
    (h : matchPatAt items prev s = some n) : matchItems items s = some n := by
  unfold matchPatAt at h
  cases hm : matchItems items s with
  | none => rw [hm] at h; cases h
  | some m =>
    rw [hm] at h
    dsimp only at h
    by_cases hb : wordBoundary prev s.head? = true ∧ wordBoundary s[m-1]? s[m]? = true
    · rw [if_pos hb] at h
      cases h
      rfl
    · rw [if_neg hb] at h
      cases h

theorem findall_shape {items : List RItem} :
    ∀ {fuel : Nat} {prev : Option Char} {s mt : Str},
      mt ∈ findallAux items fuel prev s → ShapeOf items mt := by
  intro fuel
  induction fuel with
  | zero => intro prev s mt h; simp [findallAux] at h
  | succ fuel ih =>
    intro prev s mt h
    cases s with
    | nil => simp [findallAux] at h
    | cons c rest =>
      unfold findallAux at h
      cases hp : matchPatAt items prev (c :: rest) with
      | none =>
        rw [hp] at h
        exact ih h
      | some n =>
        rw [hp] at h
        rcases List.mem_cons.1 h with h1 | h1
        · subst h1
          exact shapeOf_matchItems items (c :: rest) n (matchPatAt_matchItems hp)
        · exact ih h1

theorem mem_findall_shape {items : List RItem} {line mt : Str}
    (h : mt ∈ findall items line) : ShapeOf items mt :=
  findall_shape h

/-! ### Characters of a matched substring -/

theorem shapeOf_all {P : Char → Prop} : ∀ {items : List RItem} {s : Str},
    ShapeOf items s → (∀ it ∈ items, ∀ c, it.cls c = true → P c) →
    ∀ x ∈ s, P x := by
  intro items s hs
  induction hs with
  | nil => intro _ x hx; simp at hx
  | cons it its seg rest hall hlo hhi hrest ih =>
    intro hcls x hx
    rcases List.mem_append.1 hx with h1 | h1
    · exact hcls it (List.mem_cons_self _ _) x (List.all_eq_true.1 hall x h1)
    · exact ih (fun j hj c hc => hcls j (List.mem_cons_of_mem _ hj) c hc) x h1

theorem isDigitC_ne_dash {c : Char} (h : isDigitC c = true) : c ≠ '-' := by
  intro hc; subst hc; exact absurd h (by decide)

theorem isAlphaC_ne_dash {c : Char} (h : isAlphaC c = true) : c ≠ '-' := by
  intro hc; subst hc; exact absurd h (by decide)

theorem isAlnumC_ne_dash {c : Char} (h : isAlnumC c = true) : c ≠ '-' := by
  intro hc; subst hc; exact absurd h (by decide)

theorem isP3FirstC_ne_dash {c : Char} (h : isP3FirstC c = true) : c ≠ '-' := by
  intro hc; subst hc; exact absurd h (by decide)

theorem seg_singleton {seg : Str} {c : Char}
    (hall : seg.all (fun x => decide (x = c)) = true)
    (hlo : 1 ≤ seg.length) (hhi : seg.length ≤ 1) : seg = [c] := by
  cases seg with
  | nil => simp at hlo
  | cons a as =>
    cases as with
    | nil =>
      simp only [List.all_cons, List.all_nil, Bool.and_true, decide_eq_true_eq] at hall
      rw [hall]
    | cons b bs => simp at hhi

theorem pattern1_decomp {mt : Str} (h : ShapeOf pattern1 mt) :
    ∃ first seg2 seg3 seg4 : Str,
      mt = first ++ '-' :: (seg2 ++ '-' :: (seg3 ++ '-' :: seg4)) ∧
      (∀ x ∈ first, x ≠ '-') ∧
      seg2.all isAlphaC = true ∧ 1 ≤ seg2.length ∧ seg2.length ≤ 3 ∧
      (∀ x ∈ seg3, x ≠ '-') ∧ (∀ x ∈ seg4, x ≠ '-') := by
  unfold pattern1 at h
  cases h with
  | cons _ _ s1 r1 ha1 hl1 hh1 h =>
  cases h with
  | cons _ _ s2 r2 ha2 hl2 hh2 h =>
  cases h with
  | cons _ _ s3 r3 ha3 hl3 hh3 h =>
  cases h with
  | cons _ _ s4 r4 ha4 hl4 hh4 h =>
  cases h with
  | cons _ _ s5 r5 ha5 hl5 hh5 h =>
  cases h with
  | cons _ _ s6 r6 ha6 hl6 hh6 h =>
  cases h with
  | cons _ _ s7 r7 ha7 hl7 hh7 h =>
  cases h with
  | cons _ _ s8 r8 ha8 hl8 hh8 h =>
  cases h
  simp only [litItem] at ha2 ha3 ha5 ha7
  have hs2 : s2 = ['"'] := seg_singleton ha2 hl2 hh2
  have hs3 : s3 = ['-'] := seg_singleton ha3 hl3 hh3
  have hs5 : s5 = ['-'] := seg_singleton ha5 hl5 hh5
  have hs7 : s7 = ['-'] := seg_singleton ha7 hl7 hh7
  refine ⟨s1 ++ ['"'], s4, s6, s8, ?_, ?_, ha4, hl4, hh4, ?_, ?_⟩
  · subst hs2 hs3 hs5 hs7
    simp [List.append_assoc]
  · intro x hx
    rcases List.mem_append.1 hx with h1 | h1
    · exact isDigitC_ne_dash (List.all_eq_true.1 ha1 x h1)
    · simp at h1; subst h1; decide
  · intro x hx
    exact isAlnumC_ne_dash (List.all_eq_true.1 ha6 x hx)
  · intro x hx
    exact isAlnumC_ne_dash (List.all_eq_true.1 ha8 x hx)

theorem pattern2_decomp {mt : Str} (h : ShapeOf pattern2 mt) :
    ∃ first seg2 seg3 seg4 : Str,
      mt = first ++ '-' :: (seg2 ++ '-' :: (seg3 ++ '-' :: seg4)) ∧
      (∀ x ∈ first, x ≠ '-') ∧
      seg2.all isAlphaC = true ∧ 1 ≤ seg2.length ∧ seg2.length ≤ 3 ∧
      (∀ x ∈ seg3, x ≠ '-') ∧ (∀ x ∈ seg4, x ≠ '-') := by
  unfold pattern2 at h
  cases h with
  | cons _ _ s1 r1 ha1 hl1 hh1 h =>
  cases h with
  | cons _ _ s2 r2 ha2 hl2 hh2 h =>
  cases h with
  | cons _ _ s3 r3 ha3 hl3 hh3 h =>
  cases h with
  | cons _ _ s4 r4 ha4 hl4 hh4 h =>
  cases h with
  | cons _ _ s5 r5 ha5 hl5 hh5 h =>
  cases h with
  | cons _ _ s6 r6 ha6 hl6 hh6 h =>
  cases h with
  | cons _ _ s7 r7 ha7 hl7 hh7 h =>
  cases h
  simp only [litItem] at ha2 ha4 ha6
  have hs2 : s2 = ['-'] := seg_singleton ha2 hl2 hh2
  have hs4 : s4 = ['-'] := seg_singleton ha4 hl4 hh4
  have hs6 : s6 = ['-'] := seg_singleton ha6 hl6 hh6
  refine ⟨s1, s3, s5, s7, ?_, ?_, ha3, hl3, hh3, ?_, ?_⟩
  · subst hs2 hs4 hs6
    simp [List.append_assoc]
  · intro x hx
    exact isDigitC_ne_dash (List.all_eq_true.1 ha1 x hx)
  · intro x hx
    exact isAlnumC_ne_dash (List.all_eq_true.1 ha5 x hx)
  · intro x hx
    exact isAlnumC_ne_dash (List.all_eq_true.1 ha7 x hx)

theorem pattern3_decomp {mt : Str} (h : ShapeOf pattern3 mt) :
    ∃ first seg2 seg3 seg4 : Str,
      mt = first ++ '-' :: (seg2 ++ '-' :: (seg3 ++ '-' :: seg4)) ∧
      (∀ x ∈ first, x ≠ '-') ∧
      seg2.all isAlphaC = true ∧ 1 ≤ seg2.length ∧ seg2.length ≤ 3 ∧
      (∀ x ∈ seg3, x ≠ '-') ∧ (∀ x ∈ seg4, x ≠ '-') := by
  unfold pattern3 at h
  cases h with
  | cons _ _ s1 r1 ha1 hl1 hh1 h =>
  cases h with
  | cons _ _ s2 r2 ha2 hl2 hh2 h =>
  cases h with
  | cons _ _ s3 r3 ha3 hl3 hh3 h =>
  cases h with
  | cons _ _ s4 r4 ha4 hl4 hh4 h =>
  cases h with
  | cons _ _ s5 r5 ha5 hl5 hh5 h =>
  cases h with
  | cons _ _ s6 r6 ha6 hl6 hh6 h =>
  cases h with
  | cons _ _ s7 r7 ha7 hl7 hh7 h =>
  cases h
  simp only [litItem] at ha2 ha4 ha6
  have hs2 : s2 = ['-'] := seg_singleton ha2 hl2 hh2
  have hs4 : s4 = ['-'] := seg_singleton ha4 hl4 hh4
  have hs6 : s6 = ['-'] := seg_singleton ha6 hl6 hh6
  refine ⟨s1, s3, s5, s7, ?_, ?_, ha3, hl3, hh3, ?_, ?_⟩
  · subst hs2 hs4 hs6
    simp [List.append_assoc]
  · intro x hx
    exact isP3FirstC_ne_dash (List.all_eq_true.1 ha1 x hx)
  · intro x hx
    exact isAlnumC_ne_dash (List.all_eq_true.1 ha5 x hx)
  · intro x hx
    exact isAlnumC_ne_dash (List.all_eq_true.1 ha7 x hx)

theorem upperStr_no_dash {seg : Str} (h : ∀ x ∈ seg, x ≠ '-') :
    ∀ y ∈ upperStr seg, y ≠ '-' := by
  intro y hy
  rcases List.mem_map.1 hy with ⟨x, hx, hxy⟩
  subst hxy
  exact upChar_ne_dash (h x hx)

theorem upperStr_append (a b : Str) : upperStr (a ++ b) = upperStr a ++ upperStr b :=
  List.map_append upChar a b

theorem split_upper_four {mt first seg2 seg3 seg4 : Str}
    (hmt : mt = first ++ '-' :: (seg2 ++ '-' :: (seg3 ++ '-' :: seg4)))
    (h1 : ∀ x ∈ first, x ≠ '-') (h2 : ∀ x ∈ seg2, x ≠ '-')
    (h3 : ∀ x ∈ seg3, x ≠ '-') (h4 : ∀ x ∈ seg4, x ≠ '-') :
    splitOnChar '-' (upperStr mt) =
      [upperStr first, upperStr seg2, upperStr seg3, upperStr seg4] := by
  subst hmt
  have hcons : ∀ s : Str, upperStr ('-' :: s) = '-' :: upperStr s := fun s => rfl
  rw [upperStr_append, hcons, upperStr_append, hcons, upperStr_append, hcons]
  rw [splitOnChar_append (upperStr_no_dash h1)]
  rw [splitOnChar_append (upperStr_no_dash h2)]
  rw [splitOnChar_append (upperStr_no_dash h3)]
  rw [splitOnChar_of_no_sep (upperStr_no_dash h4)]

theorem key_second_component {mt first seg2 seg3 seg4 : Str}
    (hmt : mt = first ++ '-' :: (seg2 ++ '-' :: (seg3 ++ '-' :: seg4)))
    (h1 : ∀ x ∈ first, x ≠ '-') (h2 : ∀ x ∈ seg2, x ≠ '-')
    (h3 : ∀ x ∈ seg3, x ≠ '-') (h4 : ∀ x ∈ seg4, x ≠ '-') :
    (splitOnChar '-' (normalize_piping_line (upperStr mt)))[1]? =
      some (upperStr seg2) := by
  have hsplit := split_upper_four hmt h1 h2 h3 h4
  unfold normalize_piping_line
  rw [hsplit]
  dsimp only
  by_cases hnum : reFullMatchDollar isDigitC (upperStr first) = true
  · rw [if_pos hnum]
    rw [splitOnChar_joinWith (by simp) ?hnd]
    case hnd =>
      intro comp hc x hx
      rcases List.mem_cons.1 hc with hc1 | hc1
      · subst hc1
        rcases List.mem_append.1 hx with hx1 | hx1
        · exact upperStr_no_dash h1 x hx1
        · simp at hx1; subst hx1; decide
      · simp only [List.mem_cons, List.mem_singleton] at hc1
        rcases hc1 with hc1 | hc1 | hc1
        · subst hc1; exact upperStr_no_dash h2 x hx
        · subst hc1; exact upperStr_no_dash h3 x hx
        · rcases hc1 with hc1 | hc1
          · subst hc1; exact upperStr_no_dash h4 x hx
          · simp at hc1
    rfl
  · rw [if_neg hnum]
    rw [hsplit]
    rfl

theorem isDigitC_not_space {c : Char} (h : isDigitC c = true) : isSpaceC c = false := by
  unfold isDigitC at h
  unfold isSpaceC
  simp only [Bool.and_eq_true, decide_eq_true_eq] at h
  simp only [Bool.or_eq_false_iff, Bool.and_eq_false_iff, decide_eq_false_iff_not]
  omega

theorem isAlphaC_not_space {c : Char} (h : isAlphaC c = true) : isSpaceC c = false := by
  unfold isAlphaC isUpperC isLowerC at h
  unfold isSpaceC
  simp only [Bool.or_eq_true, Bool.and_eq_true, decide_eq_true_eq] at h
  simp only [Bool.or_eq_false_iff, Bool.and_eq_false_iff, decide_eq_false_iff_not]
  omega

theorem isAlnumC_not_space {c : Char} (h : isAlnumC c = true) : isSpaceC c = false := by
  unfold isAlnumC at h
  rw [Bool.or_eq_true] at h
  rcases h with h | h
  · exact isAlphaC_not_space h
  · exact isDigitC_not_space h

theorem isP3FirstC_not_space {c : Char} (h : isP3FirstC c = true) : isSpaceC c = false := by
  unfold isP3FirstC at h
  rw [Bool.or_eq_true] at h
  rcases h with h | h
  · exact isAlnumC_not_space h
  · rw [of_decide_eq_true h]
    decide

theorem litItem_eq {d c : Char} (h : (litItem d).cls c = true) : c = d :=
  of_decide_eq_true h

theorem pattern_no_space :
    ∀ pat ∈ patternList, ∀ it ∈ pat, ∀ c, it.cls c = true → isSpaceC c = false := by
  intro pat hpat it hit c hc
  cases hpat with
  | head =>
    cases hit with
    | head => exact isDigitC_not_space hc
    | tail _ hit =>
    cases hit with
    | head => rw [litItem_eq hc]; decide
    | tail _ hit =>
    cases hit with
    | head => rw [litItem_eq hc]; decide
    | tail _ hit =>
    cases hit with
    | head => exact isAlphaC_not_space hc
    | tail _ hit =>
    cases hit with
    | head => rw [litItem_eq hc]; decide
    | tail _ hit =>
    cases hit with
    | head => exact isAlnumC_not_space hc
    | tail _ hit =>
    cases hit with
    | head => rw [litItem_eq hc]; decide
    | tail _ hit =>
    cases hit with
    | head => exact isAlnumC_not_space hc
    | tail _ hit => cases hit
  | tail _ hpat =>
  cases hpat with
  | head =>
    cases hit with
    | head => exact isDigitC_not_space hc
    | tail _ hit =>
    cases hit with
    | head => rw [litItem_eq hc]; decide
    | tail _ hit =>
    cases hit with
    | head => exact isAlphaC_not_space hc
    | tail _ hit =>
    cases hit with
    | head => rw [litItem_eq hc]; decide
    | tail _ hit =>
    cases hit with
    | head => exact isAlnumC_not_space hc
    | tail _ hit =>
    cases hit with
    | head => rw [litItem_eq hc]; decide
    | tail _ hit =>
    cases hit with
    | head => exact isAlnumC_not_space hc
    | tail _ hit => cases hit
  | tail _ hpat =>
  cases hpat with
  | head =>
    cases hit with
    | head => exact isP3FirstC_not_space hc
    | tail _ hit =>
    cases hit with
    | head => rw [litItem_eq hc]; decide
    | tail _ hit =>
    cases hit with
    | head => exact isAlphaC_not_space hc
    | tail _ hit =>
    cases hit with
    | head => rw [litItem_eq hc]; decide
    | tail _ hit =>
    cases hit with
    | head => exact isAlnumC_not_space hc
    | tail _ hit =>
    cases hit with
    | head => rw [litItem_eq hc]; decide
    | tail _ hit =>
    cases hit with
    | head => exact isAlnumC_not_space hc
    | tail _ hit => cases hit
  | tail _ hpat => cases hpat

theorem candOfMatch_key {text line mt : Str} {layout : List Span} {ln : Nat}
    {k : Str} {v : PInfo}
    (hc : candOfMatch text layout line ln mt = some (k, v)) :
    k = normalize_piping_line (upperStr (stripStr mt)) := by
  unfold candOfMatch at hc
  by_cases hcond : (upperStr (stripStr mt)).contains '-' ∧
      (upperStr (stripStr mt)).any isUpperC
  · rw [if_pos hcond] at hc
    cases hc
    rfl
  · rw [if_neg hcond] at hc
    cases hc

theorem extract_second_component {text : Str} {layout_info : List Span} {k : Str}
    {v : PInfo} (h : (k, v) ∈ extract_piping_line_numbers text layout_info) :
    ∃ B : Str, (splitOnChar '-' k)[1]? = some B ∧ B.all isAlphaC = true ∧
      1 ≤ B.length ∧ B.length ≤ 3 := by
  rcases mem_streamFromLines (mem_extract_stream h) with ⟨line, _, ln, hp⟩
  rcases mem_lineCands hp with ⟨pat, hpat, mt, hmt, hc⟩
  have hshape : ShapeOf pat mt := mem_findall_shape hmt
  have hnos : stripStr mt = mt :=
    stripStr_eq_self (shapeOf_all hshape (pattern_no_space pat hpat))
  have hk : k = normalize_piping_line (upperStr mt) := by
    rw [candOfMatch_key hc, hnos]
  have hdecomp : ∃ first seg2 seg3 seg4 : Str,
      mt = first ++ '-' :: (seg2 ++ '-' :: (seg3 ++ '-' :: seg4)) ∧
      (∀ x ∈ first, x ≠ '-') ∧
      seg2.all isAlphaC = true ∧ 1 ≤ seg2.length ∧ seg2.length ≤ 3 ∧
      (∀ x ∈ seg3, x ≠ '-') ∧ (∀ x ∈ seg4, x ≠ '-') := by
    cases hpat with
    | head => exact pattern1_decomp hshape
    | tail _ hpat =>
    cases hpat with
    | head => exact pattern2_decomp hshape
    | tail _ hpat =>
    cases hpat with
    | head => exact pattern3_decomp hshape
    | tail _ hpat => cases hpat
  rcases hdecomp with ⟨first, seg2, seg3, seg4, hmt2, h1, halp, hlo, hhi, h3, h4⟩
  refine ⟨upperStr seg2, ?_, ?_, ?_, ?_⟩
  · rw [hk]
    exact key_second_component hmt2 h1
      (fun x hx => isAlphaC_ne_dash (List.all_eq_true.1 halp x hx)) h3 h4
  · refine List.all_eq_true.2 ?_
    intro x hx
    rcases List.mem_map.1 hx with ⟨y, hy, hxy⟩
    subst hxy
    rw [upChar_isAlphaC]
    exact List.all_eq_true.1 halp y hy
  · unfold upperStr
    rw [List.length_map]
    exact hlo
  · unfold upperStr
    rw [List.length_map]
    exact hhi

/-! ### Layout flattening lemmas -/

theorem segSpan_text_clamp (text : Str) (seg : Segment) (bbox : Option BBox) :
    (text.length < (segSpan text seg bbox).stop → (segSpan text seg bbox).text = []) ∧
    ((segSpan text seg bbox).stop ≤ text.length →
      (segSpan text seg bbox).text =
        (text.take (segSpan text seg bbox).stop).drop (segSpan text seg bbox).start) := by
  unfold segSpan
  by_cases h : seg.endIndex.getD 0 ≤ text.length
  · constructor
    · intro hcon
      simp only at hcon
      omega
    · intro _
      simp only [if_pos h]
  · constructor
    · intro _
      simp only [if_neg h]
    · intro hcon
      simp only at hcon
      omega

theorem mem_spansOfToken {text : Str} {tok : Token} {l : List Span} {sp : Span}
    (h : spansOfToken text tok = .ok l) (hm : sp ∈ l) :
    ∃ seg bbox, sp = segSpan text seg bbox := by
  unfold spansOfToken at h
  cases hlay : tok.layout with
  | none => rw [hlay] at h; cases h; simp at hm
  | some lay =>
    rw [hlay] at h
    dsimp only at h
    cases hanc : lay.textAnchor with
    | none => rw [hanc] at h; cases h; simp at hm
    | some anchor =>
      rw [hanc] at h
      dsimp only at h
      cases hseg : anchor.textSegments with
      | none => rw [hseg] at h; cases h; simp at hm
      | some segs =>
        rw [hseg] at h
        dsimp only at h
        by_cases he : segs.isEmpty
        · rw [if_pos he] at h; cases h; simp at hm
        · rw [if_neg he] at h
          cases hb : bboxOfPoly lay.boundingPoly with
          | error e => rw [hb] at h; cases h
          | ok bbox =>
            rw [hb] at h
            cases h
            rcases List.mem_map.1 hm with ⟨seg, _, hseg2⟩
            exact ⟨seg, bbox, hseg2.symm⟩

theorem mem_spansOfTokens {text : Str} {sp : Span} :
    ∀ {toks : List Token} {l : List Span},
      spansOfTokens text toks = .ok l → sp ∈ l →
      ∃ seg bbox, sp = segSpan text seg bbox := by
  intro toks
  induction toks with
  | nil =>
    intro l h hm
    cases h
    simp at hm
  | cons t ts ih =>
    intro l h hm
    unfold spansOfTokens at h
    cases h1 : spansOfToken text t with
    | error e => rw [h1] at h; cases h
    | ok l1 =>
      rw [h1] at h
      cases h2 : spansOfTokens text ts with
      | error e => rw [h2] at h; cases h
      | ok l2 =>
        rw [h2] at h
        cases h
        rcases List.mem_append.1 hm with hm1 | hm1
        · exact mem_spansOfToken h1 hm1
        · exact ih h2 hm1

theorem mem_spansOfPages {text : Str} {sp : Span} :
    ∀ {pages : List Page} {l : List Span},
      spansOfPages text pages = .ok l → sp ∈ l →
      ∃ seg bbox, sp = segSpan text seg bbox := by
  intro pages
  induction pages with
  | nil =>
    intro l h hm
    cases h
    simp at hm
  | cons p ps ih =>
    intro l h hm
    unfold spansOfPages at h
    cases h1 : spansOfTokens text (p.tokens.getD []) with
    | error e => rw [h1] at h; cases h
    | ok l1 =>
      rw [h1] at h
      cases h2 : spansOfPages text ps with
      | error e => rw [h2] at h; cases h
      | ok l2 =>
        rw [h2] at h
        cases h
        rcases List.mem_append.1 hm with hm1 | hm1
        · exact mem_spansOfTokens h1 hm1
        · exact ih h2 hm1

theorem mem_extract_doc_spans {doc : DocumentDict} {text : Str} {spans : List Span}
    {sp : Span} (h : extract_text_and_layout_from_document doc = .ok (text, spans))
    (hm : sp ∈ spans) : ∃ seg bbox, sp = segSpan text seg bbox := by
  unfold extract_text_and_layout_from_document at h
  dsimp only at h
  cases h1 : spansOfPages (doc.text.getD []) (doc.pages.getD []) with
  | error e => rw [h1] at h; cases h
  | ok l =>
    rw [h1] at h
    dsimp only [Except.map] at h
    cases h
    exact mem_spansOfPages h1 hm

/-! ### Documents with readable vertex lists flatten without error -/

theorem spansOfToken_ok {text : Str} {tok : Token} (h : tokenVerticesOK tok = true) :
    ∃ l, spansOfToken text tok = .ok l := by
  unfold tokenVerticesOK at h
  unfold spansOfToken
  cases hlay : tok.layout with
  | none => exact ⟨[], rfl⟩
  | some lay =>
    try rw [hlay] at h
    try rw [hlay]
    dsimp only at h ⊢
    cases hanc : lay.textAnchor with
    | none => exact ⟨[], rfl⟩
    | some anchor =>
      try rw [hanc] at h
      try rw [hanc]
      dsimp only at h ⊢
      cases hseg : anchor.textSegments with
      | none => exact ⟨[], rfl⟩
      | some segs =>
        try rw [hseg] at h
        try rw [hseg]
        dsimp only at h ⊢
        by_cases he : segs.isEmpty
        · rw [if_pos he]
          exact ⟨[], rfl⟩
        · rw [if_neg he]
          rw [if_neg he] at h
          cases hb : lay.boundingPoly with
          | none =>
            exact ⟨_, rfl⟩
          | some poly =>
            try rw [hb] at h
            dsimp only at h
            unfold bboxOfPoly
            dsimp only
            by_cases hv : (poly.vertices.getD []).isEmpty
            · rw [if_pos hv]
              exact ⟨_, rfl⟩
            · rw [if_neg hv]
              rw [Bool.or_eq_true] at h
              rcases h with h | h
              · exact absurd h hv
              · have hlen : 3 ≤ (poly.vertices.getD []).length := of_decide_eq_true h
                rw [List.getElem?_eq_getElem (by omega), List.getElem?_eq_getElem (by omega)]
                exact ⟨_, rfl⟩

theorem spansOfTokens_ok {text : Str} :
    ∀ {toks : List Token}, (∀ t ∈ toks, tokenVerticesOK t = true) →
      ∃ l, spansOfTokens text toks = .ok l := by
  intro toks
  induction toks with
  | nil => intro _; exact ⟨[], rfl⟩
  | cons t ts ih =>
    intro h
    rcases spansOfToken_ok (h t (List.mem_cons_self _ _)) with ⟨l1, h1⟩
    rcases ih (fun x hx => h x (List.mem_cons_of_mem _ hx)) with ⟨l2, h2⟩
    refine ⟨l1 ++ l2, ?_⟩
    unfold spansOfTokens
    rw [h1, h2]
    rfl

theorem spansOfPages_ok {text : Str} :
    ∀ {pages : List Page},
      (∀ p ∈ pages, ∀ t ∈ p.tokens.getD [], tokenVerticesOK t = true) →
      ∃ l, spansOfPages text pages = .ok l := by
  intro pages
  induction pages with
  | nil => intro _; exact ⟨[], rfl⟩
  | cons p ps ih =>
    intro h
    rcases spansOfTokens_ok (h p (List.mem_cons_self _ _)) with ⟨l1, h1⟩
    rcases ih (fun x hx => h x (List.mem_cons_of_mem _ hx)) with ⟨l2, h2⟩
    refine ⟨l1 ++ l2, ?_⟩
    unfold spansOfPages
    rw [h1, h2]
    rfl

theorem extract_doc_ok {doc : DocumentDict} (h : docVerticesOK doc = true) :
    ∃ res, extract_text_and_layout_from_document doc = .ok res := by
  unfold docVerticesOK at h
  have hall : ∀ p ∈ doc.pages.getD [], ∀ t ∈ p.tokens.getD [], tokenVerticesOK t = true := by
    intro p hp t ht
    exact List.all_eq_true.1 (List.all_eq_true.1 h p hp) t ht
  rcases @spansOfPages_ok (doc.text.getD []) (doc.pages.getD []) hall with ⟨l, hl⟩
  refine ⟨(doc.text.getD [], l), ?_⟩
  unfold extract_text_and_layout_from_document
  dsimp only
  rw [hl]
  rfl

/-! ### PID extraction structure -/

theorem extract_pid_of_pattern1 {text g : Str}
    (h : searchPid matchPidPattern1At text = some g) :
    extract_pid_identifier text = some (stripStr g) := by
  unfold extract_pid_identifier
  rw [h]

theorem extract_pid_of_pattern2 {text g : Str}
    (h1 : searchPid matchPidPattern1At text = none)
    (h2 : searchPid matchPidPattern2At text = some g) :
    extract_pid_identifier text = some (stripStr g) := by
  unfold extract_pid_identifier
  rw [h1, h2]

theorem extract_pid_none_iff (text : Str) :
    extract_pid_identifier text = none ↔
      searchPid matchPidPattern1At text = none ∧
      searchPid matchPidPattern2At text = none := by
  unfold extract_pid_identifier
  cases h1 : searchPid matchPidPattern1At text with
  | some g => simp
  | none =>
    cases h2 : searchPid matchPidPattern2At text with
    | some g => simp
    | none => simp

/-! ## Claims -/

/-- Claim C1: for every candidate identifier string as produced by extraction
(uppercased, hence without lowercase letters), `validate_piping_line` accepts
exactly when all spec conditions hold: exactly 4 dash-separated components, at
least one letter and one digit anywhere, total length within [7, 20], a digit
in the first component, and a fourth component consisting solely of (at least
one) alphanumeric characters.  The function is a total Boolean predicate, so a
failing candidate is dropped without an error. -/
theorem c1_validate_iff_spec (s : Str) (hnl : ∀ c ∈ s, isLowerC c = false) :
    validate_piping_line s = true ↔ specValidPL s :=
  validate_iff_spec s hnl

/-- Witness for C1 at the identifier of the spec's running example. -/
theorem c1_witness :
    validate_piping_line (("6\"-P-101-CS").data) = true ↔
      specValidPL (("6\"-P-101-CS").data) :=
  c1_validate_iff_spec (("6\"-P-101-CS").data) (by decide)

/-- Claim C2 counterexample: on the end-to-end example text the pipeline
produces exactly one record, and its identifier is `6"-P-101-CS` — not the
claimed `6"-P-101-CS"` with a trailing inch mark. -/
theorem c2_counterexample :
    (process_text_core exTextC2 []).piping_lines.map Entry.piping_line_number =
      [("6\"-P-101-CS").data] ∧
    ("6\"-P-101-CS").data ≠ ("6\"-P-101-CS\"").data := by
  constructor
  · decide
  · decide

/-- Claim C2 amended: for the two-line example text with an empty layout-span
list, the pipeline produces exactly one record with identifier `6"-P-101-CS`
(no trailing inch mark) at text line 1, `pid_identifier` `XY-99-PID` and
`total_found` 1. -/
theorem c2_endtoend_amended :
    process_text_core exTextC2 [] =
      { total_found := 1
        pid_identifier := some (("XY-99-PID").data)
        piping_lines := [{ piping_line_number := ("6\"-P-101-CS").data
                           text_line_number := 1
                           context := ("Size 6\"-P-101-CS to reactor").data
                           coordinates := none }] } := by
  decide

/-- Claim C3: for every input, every identifier in the final `piping_lines`
satisfies the validation rule; the records are strictly ascending by ordinary
string comparison on the identifier (hence exactly one record per validated
identifier); `total_found` equals the length of `piping_lines`; and each
record carries the first-seen (line number, context, coordinates) tuple of its
identifier in the validated map. -/
theorem c3_result_assembly (text : Str) (layout_info : List Span) :
    (∀ e ∈ (process_text_core text layout_info).piping_lines,
        validate_piping_line e.piping_line_number = true) ∧
    ((process_text_core text layout_info).piping_lines.Pairwise
        (fun a b => strLt a.piping_line_number b.piping_line_number = true)) ∧
    ((process_text_core text layout_info).total_found =
        (process_text_core text layout_info).piping_lines.length) ∧
    (∀ e ∈ (process_text_core text layout_info).piping_lines,
        lookupFirst e.piping_line_number
          ((extract_piping_line_numbers text layout_info).filter
            (fun p => validate_piping_line p.1)) =
          some (e.text_line_number, e.context, e.coordinates)) := by
  have hr : process_text_core text layout_info =
      save_results_as_json
        ((extract_piping_line_numbers text layout_info).filter
          (fun p => validate_piping_line p.1))
        (extract_pid_identifier text) := rfl
  refine ⟨?ha, ?hb, ?hc, ?hd⟩
  case ha =>
    intro e he
    rw [hr] at he
    rcases List.mem_map.1 (save_entry_key_mem he) with ⟨p, hp, hpk⟩
    rw [← hpk]
    exact (List.mem_filter.1 hp).2
  case hb =>
    rw [hr]
    exact save_sorted (nodup_keys_filter _ _ (nodup_keys_extract text layout_info))
  case hc =>
    rw [hr]
    exact save_length
  case hd =>
    intro e he
    rw [hr] at he
    exact save_entry_lookup he

/-- Witness for C3: the record of the end-to-end example satisfies the
validation rule. -/
theorem c3_witness :
    validate_piping_line
      ({ piping_line_number := ("6\"-P-101-CS").data
         text_line_number := 1
         context := ("Size 6\"-P-101-CS to reactor").data
         coordinates := none : Entry }).piping_line_number = true :=
  (c3_result_assembly exTextC2 []).1 _ (by decide)

/-- Claim C4: the extraction map agrees, on every key, with the first
occurrence in the raw candidate stream (every processed pattern match on every
line, in order): the first pattern/line position producing a normalized
identifier wins, later duplicates never overwrite it, and other identifiers
are unaffected.  On the spec's duplicate example the line-1 occurrence of
`6-P-101-CS` (normalizing to `6"-P-101-CS`) is the one retained. -/
theorem c4_first_wins :
    (∀ (text : Str) (layout_info : List Span) (k : Str),
      lookupFirst k (extract_piping_line_numbers text layout_info) =
        lookupFirst k (candidateStream text layout_info)) ∧
    extract_piping_line_numbers dupText [] =
      [(("6\"-P-101-CS").data, (1, ("6-P-101-CS").data, none))] :=
  ⟨lookup_extract_eq_stream, by decide⟩

/-- Claim C5 amended: `normalize_piping_line` is idempotent; it is the
identity exactly when the first dash-separated component does not match the
source regex `^\d+$` — purely numeric where the dollar anchor also accepts
one trailing newline; in particular a first component carrying an inch mark
is left alone. -/
theorem c5_normalization (s : Str) :
    normalize_piping_line (normalize_piping_line s) = normalize_piping_line s ∧
    (normalize_piping_line s = s ↔
      reFullMatchDollar isDigitC ((splitOnChar '-' s).headD []) = false) ∧
    ('"' ∈ (splitOnChar '-' s).headD [] → normalize_piping_line s = s) := by
  refine ⟨normalize_piping_line_idem s, normalize_noop_iff s, ?_⟩
  intro hq
  rw [normalize_noop_iff s]
  exact reFullMatchDollar_of_mem_quote hq

/-- Claim C5 counterexample: the first component of `12\n-A` is not purely
numeric (it contains a newline), yet the source appends the inch mark to it,
because the dollar anchor of `^\d+$` matches before the trailing newline; so
"appends an inch mark exactly when the component is purely numeric" is false
of the program. -/
theorem c5_counterexample :
    normalize_piping_line (("12\n-A").data) = ("12\n\"-A").data ∧
    (("12\n").data).all isDigitC = false ∧
    ("12\n\"-A").data ≠ ("12\n-A").data := by
  refine ⟨by decide, by decide, by decide⟩

/-- Witness for C5 at the already inch-marked example. -/
theorem c5_witness :
    normalize_piping_line (("6\"-P-101-CS").data) = ("6\"-P-101-CS").data :=
  (c5_normalization (("6\"-P-101-CS").data)).2.2 (by decide)

/-- Claim C6 amended: `extract_pid_identifier` searches case-insensitively
for the DWG-NO label followed by an alphanumeric/dash token containing `PID`,
trying the variant with a mandatory period after `DWG` (period after `NO`
optional) first, and falling back to the variant without the period after
`DWG`; it returns the first capture group trimmed, and absent exactly when
neither pattern matches anywhere.  On text containing
`DWG. NO. ABC-123-PID-01` it returns `ABC-123-PID-01`. -/
theorem c6_pid_extraction :
    (∀ text g : Str, searchPid matchPidPattern1At text = some g →
      extract_pid_identifier text = some (stripStr g)) ∧
    (∀ text g : Str, searchPid matchPidPattern1At text = none →
      searchPid matchPidPattern2At text = some g →
      extract_pid_identifier text = some (stripStr g)) ∧
    (∀ text : Str, extract_pid_identifier text = none ↔
      searchPid matchPidPattern1At text = none ∧
      searchPid matchPidPattern2At text = none) ∧
    extract_pid_identifier (("PLAN DWG. NO. ABC-123-PID-01 SHEET 2").data) =
      some (("ABC-123-PID-01").data) :=
  ⟨fun _ _ => extract_pid_of_pattern1,
   fun _ _ => extract_pid_of_pattern2,
   extract_pid_none_iff,
   by decide⟩

/-- Witness for C6: the fallback pattern fires on `DWG NO X-PID`. -/
theorem c6_witness :
    extract_pid_identifier (("DWG NO X-PID").data) = some (stripStr (("X-PID").data)) :=
  c6_pid_extraction.2.1 (("DWG NO X-PID").data) (("X-PID").data) (by decide) (by decide)

/-- Claim C6 counterexample: the two source patterns both make the period
after `NO` optional and differ by the mandatory period after `DWG`, not — as
the claim says — by the period after `NO`.  On a text whose earlier label
lacks the `DWG` period but has the `NO` period, and whose later label has the
`DWG` period but no `NO` period, the source returns the later identifier
`B-PID`, while the claim's ordering (modelled by `claim_extract_pid`) returns
the earlier `A-PID`. -/
theorem c6_counterexample :
    extract_pid_identifier (("DWG NO. A-PID DWG. NO B-PID").data) =
      some (("B-PID").data) ∧
    claim_extract_pid (("DWG NO. A-PID DWG. NO B-PID").data) =
      some (("A-PID").data) ∧
    (("B-PID").data : Str) ≠ ("A-PID").data := by
  refine ⟨by decide, by decide, by decide⟩

/-- Claim C7 amended: coordinate resolution returns absent, without raising,
when the matched text has no case-insensitive occurrence in the full text; an
empty span list always yields absent coordinates; every record extracted with
an empty span list carries `none` coordinates; the span list has no influence
on which identifiers, line numbers and contexts are extracted; and for a
nonempty match range and spans whose start lies strictly below their end, the
overlap scan returns the bounding box of the first span that overlaps the
match range — spans intersect when neither is strictly before the other — and
carries a bounding box.  (On a degenerate span, or an empty match range,
touching the start of the range, the source's three-clause test counts an
overlap that the neither-strictly-before test does not; see the
counterexample.) -/
theorem c7_coordinate_resolution :
    (∀ (target_text text : Str) (spans : List Span),
      findSub (upperStr text) (upperStr target_text) = none →
      find_coordinates_for_text target_text text spans = none) ∧
    (∀ target_text text : Str, find_coordinates_for_text target_text text [] = none) ∧
    (∀ (text : Str) (p : Str × PInfo),
      p ∈ extract_piping_line_numbers text [] → p.2.2.2 = none) ∧
    (∀ (text : Str) (spans : List Span),
      (extract_piping_line_numbers text spans).map eraseCoords =
        (extract_piping_line_numbers text []).map eraseCoords) ∧
    (∀ (spans : List Span) (sp ep : Nat), sp < ep →
      (∀ l ∈ spans, l.start < l.stop) →
      findOverlapBBox spans sp ep = findOverlapSpec spans sp ep) :=
  ⟨fun _ _ spans h => find_coordinates_of_findSub_none spans h,
   fun t text => find_coordinates_nil t text,
   fun _ _ h => extract_nil_coords_none h,
   fun text spans => extract_erase text spans [],
   findOverlap_eq_spec⟩

/-- Witness for C7: a missing occurrence yields absent coordinates, the
record of the end-to-end example (extracted with an empty span list) has
`none` coordinates, and the overlap scan agrees with its spec description on
a concrete span list. -/
theorem c7_witness :
    find_coordinates_for_text (("ZZZ").data) (("ABC").data)
      [{ start := 0, stop := 3, bbox := none, text := ("ABC").data }] = none ∧
    ((("6\"-P-101-CS").data,
        ((1 : Nat), ("Size 6\"-P-101-CS to reactor").data,
          (none : Option BBox)))).2.2.2 = (none : Option BBox) ∧
    findOverlapBBox
        [{ start := 0, stop := 3, bbox := none, text := [] },
         { start := 3, stop := 8,
           bbox := some { x := 1, y := 2, width := 3, height := 4 }, text := [] }] 2 5 =
      findOverlapSpec
        [{ start := 0, stop := 3, bbox := none, text := [] },
         { start := 3, stop := 8,
           bbox := some { x := 1, y := 2, width := 3, height := 4 }, text := [] }] 2 5 :=
  ⟨c7_coordinate_resolution.1 (("ZZZ").data) (("ABC").data) _ (by decide),
   c7_coordinate_resolution.2.2.1 exTextC2 _ (by decide),
   c7_coordinate_resolution.2.2.2.2 _ 2 5 (by decide) (by decide)⟩

/-- Claim C7 counterexample: the source's overlap test and the claim's
neither-strictly-before test disagree on every span list containing a
degenerate span at the start of the match range, and on an empty match range:
in both cases the source's third clause fires and returns the bounding box,
while under the claim's test no span overlaps. -/
theorem c7_counterexample :
    (findOverlapBBox
        [{ start := 0, stop := 0,
           bbox := some { x := 1, y := 2, width := 3, height := 4 }, text := [] }] 0 2 =
      some { x := 1, y := 2, width := 3, height := 4 } ∧
     findOverlapSpec
        [{ start := 0, stop := 0,
           bbox := some { x := 1, y := 2, width := 3, height := 4 }, text := [] }] 0 2 =
      none) ∧
    (findOverlapBBox
        [{ start := 0, stop := 5,
           bbox := some { x := 1, y := 2, width := 3, height := 4 }, text := [] }] 0 0 =
      some { x := 1, y := 2, width := 3, height := 4 } ∧
     findOverlapSpec
        [{ start := 0, stop := 5,
           bbox := some { x := 1, y := 2, width := 3, height := 4 }, text := [] }] 0 0 =
      none) := by
  refine ⟨⟨by decide, by decide⟩, ⟨by decide, by decide⟩⟩

/-- Claim C8 counterexample: a well-typed document whose token carries a text
segment and a bounding polygon with a single vertex makes
`extract_text_and_layout_from_document` raise an index error (the source reads
`vertices[2]`), contradicting the claim that such documents are tolerated. -/
theorem c8_counterexample :
    extract_text_and_layout_from_document badVertexDoc = .error () := rfl

/-- Claim C8 amended: `extract_text_and_layout_from_document` returns normally
— treating each absent section (`text`, `pages`, `tokens`, `layout`,
`textAnchor`, `textSegments`, `boundingPoly`) as empty — for every well-typed
document in which each token that contributes a text segment has a vertex list
that is either empty or holds at least the 3 entries the source reads; a
nonempty vertex list with fewer than 3 entries instead raises an index
error. -/
theorem c8_flattening_amended (doc : DocumentDict) (h : docVerticesOK doc = true) :
    ∃ res, extract_text_and_layout_from_document doc = .ok res :=
  extract_doc_ok h

/-- Witness for C8 on a document exercising every optional field. -/
theorem c8_witness :
    ∃ res, extract_text_and_layout_from_document partialDoc = .ok res :=
  c8_flattening_amended partialDoc (by decide)

/-- Claim C9: every span produced by layout flattening clamps its text to the
empty string when its end index exceeds the length of the document text (no
exception is raised — span construction is total), and carries the substring
`text[start:end]` when the end index is within bounds. -/
theorem c9_span_clamp (doc : DocumentDict) (text : Str) (spans : List Span)
    (h : extract_text_and_layout_from_document doc = .ok (text, spans)) :
    ∀ sp ∈ spans,
      (text.length < sp.stop → sp.text = []) ∧
      (sp.stop ≤ text.length → sp.text = (text.take sp.stop).drop sp.start) := by
  intro sp hm
  rcases mem_extract_doc_spans h hm with ⟨seg, bbox, hsp⟩
  subst hsp
  exact segSpan_text_clamp text seg bbox

/-- Witness for C9 on the partial document, whose second segment ends at 99
while the text has 11 characters. -/
theorem c9_witness :
    ((("hello world").data.length <
        ({ start := 6, stop := 99, bbox := none, text := [] : Span }).stop →
      ({ start := 6, stop := 99, bbox := none, text := [] : Span }).text = []) ∧
     (({ start := 6, stop := 99, bbox := none, text := [] : Span }).stop ≤
        ("hello world").data.length →
      ({ start := 6, stop := 99, bbox := none, text := [] : Span }).text =
        ((("hello world").data.take 99).drop 6))) :=
  c9_span_clamp partialDoc (("hello world").data)
    [{ start := 0, stop := 5, bbox := none, text := ("hello").data },
     { start := 6, stop := 99, bbox := none, text := [] }]
    rfl _ (by decide)

/-- Claim C10: the second dash-separated component of every extracted
identifier comes from the `[A-Z]{1,3}` slot of the three patterns: it always
consists of 1 to 3 letters and contains no digit.  Consequently the token
`6"-12-101-CS`, although it passes `validate_piping_line`, is never produced
by `extract_piping_line_numbers` for any input text. -/
theorem c10_second_component :
    (∀ (text : Str) (layout_info : List Span) (k : Str) (v : PInfo),
      (k, v) ∈ extract_piping_line_numbers text layout_info →
      ∃ B : Str, (splitOnChar '-' k)[1]? = some B ∧ B.all isAlphaC = true ∧
        B.all (fun c => !isDigitC c) = true ∧ 1 ≤ B.length ∧ B.length ≤ 3) ∧
    validate_piping_line (("6\"-12-101-CS").data) = true ∧
    (∀ (text : Str) (layout_info : List Span) (v : PInfo),
      (("6\"-12-101-CS").data, v) ∈ extract_piping_line_numbers text layout_info →
      False) := by
  have hgen : ∀ (text : Str) (layout_info : List Span) (k : Str) (v : PInfo),
      (k, v) ∈ extract_piping_line_numbers text layout_info →
      ∃ B : Str, (splitOnChar '-' k)[1]? = some B ∧ B.all isAlphaC = true ∧
        B.all (fun c => !isDigitC c) = true ∧ 1 ≤ B.length ∧ B.length ≤ 3 := by
    intro text layout_info k v h
    rcases extract_second_component h with ⟨B, h1, h2, h3, h4⟩
    refine ⟨B, h1, h2, ?_, h3, h4⟩
    refine List.all_eq_true.2 ?_
    intro c hc
    have hnd := isAlphaC_not_digit (List.all_eq_true.1 h2 c hc)
    rw [hnd]
    rfl
  refine ⟨hgen, by decide, ?_⟩
  intro text layout_info v h
  rcases hgen text layout_info _ v h with ⟨B, hB, hall, _, _, _⟩
  have hconc : (splitOnChar '-' (("6\"-12-101-CS").data))[1]? =
      some (("12").data) := by decide
  rw [hconc] at hB
  have hB2 : B = ("12").data := (Option.some.inj hB).symm
  subst hB2
  exact absurd hall (by decide)

/-- Witness for C10 on a single-identifier text. -/
theorem c10_witness :
    ∃ B : Str, (splitOnChar '-' (("6\"-P-101-CS").data))[1]? = some B ∧
      B.all isAlphaC = true ∧ B.all (fun c => !isDigitC c) = true ∧
      1 ≤ B.length ∧ B.length ≤ 3 :=
  c10_second_component.1 (("6\"-P-101-CS").data) [] (("6\"-P-101-CS").data)
    (1, ("6\"-P-101-CS").data, none) (by decide)
